import Mathlib

/-!
# The `forth` package: a stack evaluator for small configuration expressions

Shallow embedding of `src/forth.go`.

* Go strings are modelled by Lean `String` (the expression language only ever
  inspects the space character and the characters of `TrimLeft`'s cutset, all
  of them ASCII).
* `f.stack` is a `List String` whose LAST element is the top of the stack,
  exactly as the Go slice is used (`append` at the end, slice off the end).
* A Go `panic` is explicit: every operation returns the stack it leaves behind
  together with either a value or the panic value that was raised.
* The machine `int` is two's complement of 32 or 64 bits, chosen by the host;
  arithmetic wraps (`Host.wrap`).
* `strconv.Atoi`, `strconv.Itoa`, `strings.Split`, `strings.TrimLeft` and
  `os.Hostname` belong to the Go library, not to the package; they are
  modelled from their documented behaviour.
-/

namespace Forth

/-! ## Host, machine integers -/

/-- The environment the package runs in: the width of `int` and the answer of
`os.Hostname()` (`none` when the query fails). -/
structure Host where
  int64 : Bool
  hostname : Option String
deriving DecidableEq

/-- Number of bits of the Go type `int` on the host. -/
def Host.intSize (h : Host) : Nat := if h.int64 then 64 else 32

/-- Smallest value of `int`. -/
def Host.minInt (h : Host) : Int := -(2 ^ (h.intSize - 1))

/-- Largest value of `int`. -/
def Host.maxInt (h : Host) : Int := 2 ^ (h.intSize - 1) - 1

/-- The integer `z` is representable as an `int`. -/
def Host.inRange (h : Host) (z : Int) : Prop := h.minInt ≤ z ∧ z ≤ h.maxInt

instance (h : Host) (z : Int) : Decidable (h.inRange z) := by
  unfold Host.inRange; exact inferInstance

/-- Two's complement wrap-around of a mathematical result into `int`. -/
def Host.wrap (h : Host) (z : Int) : Int :=
  (z + 2 ^ (h.intSize - 1)) % 2 ^ h.intSize - 2 ^ (h.intSize - 1)

/-! ## Panic values and results -/

/-- The values a `panic` can carry, classified the way `errRecover` tells them
apart: a `runtime.Error`, another `os.Error`, or anything else (for instance
the plain string `"No hostname"`). -/
inductive PanicVal
  | osError (msg : String)
  | runtimeError (msg : String)
  | other (msg : String)
deriving DecidableEq

/-- Outcome of a call that may panic instead of returning. -/
inductive Res (α : Type)
  | ok (v : α)
  | panic (e : PanicVal)
deriving DecidableEq

/-- The error value built by `os.NewError("Empty stack")`. -/
def EmptyStack : PanicVal := .osError "Empty stack"

/-- The run-time panic of an integer division by zero. -/
def divideError : PanicVal := .runtimeError "integer divide by zero"

/-- The run-time panic of a failed type assertion `e.(os.Error)`. -/
def assertError : PanicVal := .runtimeError "interface conversion: not os.Error"

/-! ## Library functions (`strconv`, `strings`) -/

/-- Decimal digit test. -/
def isDigit (c : Char) : Bool := decide ('0' ≤ c) && decide (c ≤ '9')

/-- Value of a decimal digit character. -/
def digitVal (c : Char) : Nat := c.toNat - 48

/-- Character of a decimal digit value. -/
def digitChar (d : Nat) : Char := Char.ofNat (48 + d)

/-- Value of a run of decimal digits, most significant first. -/
def parseDigits (cs : List Char) : Nat :=
  cs.foldl (fun acc c => acc * 10 + digitVal c) 0

/-- Decimal digits of `n`, most significant first (`fuel` bounds the number of
digits; `n + 1` is always enough). -/
def natDigits : Nat → Nat → List Char
  | 0, _ => []
  | fuel + 1, n =>
    if n < 10 then [digitChar n] else natDigits fuel (n / 10) ++ [digitChar (n % 10)]

/-- The two failures of `strconv.Atoi`: invalid text, value out of range. -/
inductive NumError
  | einval
  | erange
deriving DecidableEq

/-- The text is an optional sign followed by at least one decimal digit: what
`strconv.Atoi` accepts as the spelling of an integer. -/
def isDecimal (s : String) : Bool :=
  match s.data with
  | [] => false
  | c :: cs =>
    let ds := if c = '+' ∨ c = '-' then cs else c :: cs
    !ds.isEmpty && ds.all isDigit

/-- Model of `strconv.Atoi`: value and error. Invalid text gives 0; a value
outside `int` gives the nearest bound; both report an error. -/
def Atoi (h : Host) (s : String) : Int × Option NumError :=
  match s.data with
  | [] => (0, some .einval)
  | c :: cs =>
    let ds := if c = '+' ∨ c = '-' then cs else c :: cs
    if ds.isEmpty ∨ ¬ ds.all isDigit then (0, some .einval)
    else
      let n : Int := if c = '-' then -(parseDigits ds : Int) else (parseDigits ds : Int)
      if n < h.minInt then (h.minInt, some .erange)
      else if h.maxInt < n then (h.maxInt, some .erange)
      else (n, none)

/-- Model of `strconv.Itoa`: decimal rendering, `-` before a negative value. -/
def Itoa (z : Int) : String :=
  if z < 0 then String.mk ('-' :: natDigits (z.natAbs + 1) z.natAbs)
  else String.mk (natDigits (z.natAbs + 1) z.natAbs)

/-- Splitting a character list at every occurrence of `sep`; the result has
one more element than there are separators. -/
def splitChars (sep : Char) : List Char → List (List Char)
  | [] => [[]]
  | c :: cs =>
    if c = sep then [] :: splitChars sep cs
    else
      match splitChars sep cs with
      | [] => [[c]]
      | w :: ws => (c :: w) :: ws

/-- Model of `strings.Split(s, sep)` for a separator of one character. -/
def Split (s : String) (sep : Char) : List String :=
  (splitChars sep s.data).map String.mk

/-- Model of `strings.TrimLeft(s, cutset)`: drop the leading characters that
occur in `cutset`. -/
def TrimLeft (s : String) (cutset : String) : String :=
  String.mk (s.data.dropWhile (fun c => decide (c ∈ cutset.data)))

/-! ## The stack (`forthstack`) -/

/-- The Go struct `forthstack`; the top of the stack is the last element. -/
structure forthstack where
  stack : List String
deriving DecidableEq

/-- `New()`: a fresh, empty stack. -/
def New : forthstack := ⟨[]⟩

/-- `Reset`: `f.stack = f.stack[0:0]`. -/
def forthstack.Reset (f : forthstack) : forthstack := ⟨f.stack.take 0⟩

/-- `Push`: `f.stack = append(f.stack, s)`. -/
def forthstack.Push (f : forthstack) (s : String) : forthstack := ⟨f.stack ++ [s]⟩

/-- `Pop`: panics with `EmptyStack` when `len(f.stack) < 1`, leaving the stack
as it is; otherwise returns the last element and slices it off. -/
def forthstack.Pop (f : forthstack) : forthstack × Res String :=
  if f.stack.length < 1 then (f, .panic EmptyStack)
  else (⟨f.stack.take (f.stack.length - 1)⟩, .ok (f.stack.getLastD ""))

/-- `Length`: `len(f.stack)`. -/
def forthstack.Length (f : forthstack) : Nat := f.stack.length

/-- `Empty`: `len(f.stack) == 0`. -/
def forthstack.Empty (f : forthstack) : Bool := f.stack.length == 0

/-! ## Operators -/

/-- The Go type `forthop`: a function that works on the stack. It leaves a stack
behind and either returns (`none`) or panics (`some e`). -/
abbrev forthop := Host → forthstack → forthstack × Option PanicVal

/-- The operator `+`. -/
def plus : forthop := fun h f =>
  match f.Pop with
  | (f1, .panic e) => (f1, some e)
  | (f1, .ok sx) =>
    let x := (Atoi h sx).1
    match f1.Pop with
    | (f2, .panic e) => (f2, some e)
    | (f2, .ok sy) =>
      let y := (Atoi h sy).1
      let z := h.wrap (x + y)
      (f2.Push (Itoa z), none)

/-- The operator `*`. -/
def times : forthop := fun h f =>
  match f.Pop with
  | (f1, .panic e) => (f1, some e)
  | (f1, .ok sx) =>
    let x := (Atoi h sx).1
    match f1.Pop with
    | (f2, .panic e) => (f2, some e)
    | (f2, .ok sy) =>
      let y := (Atoi h sy).1
      let z := h.wrap (x * y)
      (f2.Push (Itoa z), none)

/-- The operator `-`: `z := y-x`. -/
def sub : forthop := fun h f =>
  match f.Pop with
  | (f1, .panic e) => (f1, some e)
  | (f1, .ok sx) =>
    let x := (Atoi h sx).1
    match f1.Pop with
    | (f2, .panic e) => (f2, some e)
    | (f2, .ok sy) =>
      let y := (Atoi h sy).1
      let z := h.wrap (y - x)
      (f2.Push (Itoa z), none)

/-- The operator `/`: `z := y/x`, Go's quotient truncated toward zero; a zero
divisor is a run-time panic. The quotient is an `int`: the smallest `int`
divided by -1 overflows and, by the rule of the language, gives the dividend
back, which is what `Host.wrap` computes. -/
def div : forthop := fun h f =>
  match f.Pop with
  | (f1, .panic e) => (f1, some e)
  | (f1, .ok sx) =>
    let x := (Atoi h sx).1
    match f1.Pop with
    | (f2, .panic e) => (f2, some e)
    | (f2, .ok sy) =>
      let y := (Atoi h sy).1
      if x = 0 then (f2, some divideError)
      else
        let z := h.wrap (Int.tdiv y x)
        (f2.Push (Itoa z), none)

/-- The operator `%`: `z := y%x`, the remainder of the truncated division; a
zero divisor is a run-time panic. -/
def mod : forthop := fun h f =>
  match f.Pop with
  | (f1, .panic e) => (f1, some e)
  | (f1, .ok sx) =>
    let x := (Atoi h sx).1
    match f1.Pop with
    | (f2, .panic e) => (f2, some e)
    | (f2, .ok sy) =>
      let y := (Atoi h sy).1
      if x = 0 then (f2, some divideError)
      else
        let z := h.wrap (Int.tmod y x)
        (f2.Push (Itoa z), none)

/-- The operator `roundup`: `v = ((v + rnd-1)/rnd)*rnd`. -/
def roundup : forthop := fun h f =>
  match f.Pop with
  | (f1, .panic e) => (f1, some e)
  | (f1, .ok srnd) =>
    let rnd := (Atoi h srnd).1
    match f1.Pop with
    | (f2, .panic e) => (f2, some e)
    | (f2, .ok sv) =>
      let v := (Atoi h sv).1
      if rnd = 0 then (f2, some divideError)
      else
        let v := h.wrap (h.wrap (Int.tdiv (h.wrap (h.wrap (v + rnd) - 1)) rnd) * rnd)
        (f2.Push (Itoa v), none)

/-- The operator `swap`. -/
def swap : forthop := fun _ f =>
  match f.Pop with
  | (f1, .panic e) => (f1, some e)
  | (f1, .ok x) =>
    match f1.Pop with
    | (f2, .panic e) => (f2, some e)
    | (f2, .ok y) => ((f2.Push x).Push y, none)

/-- The operator `strcat`: pushes `y+x`. -/
def strcat : forthop := fun _ f =>
  match f.Pop with
  | (f1, .panic e) => (f1, some e)
  | (f1, .ok x) =>
    match f1.Pop with
    | (f2, .panic e) => (f2, some e)
    | (f2, .ok y) => (f2.Push (y ++ x), none)

/-- The operator `dup`. -/
def dup : forthop := fun _ f =>
  match f.Pop with
  | (f1, .panic e) => (f1, some e)
  | (f1, .ok x) => ((f1.Push x).Push x, none)

/-- The operator `ifelse`. -/
def ifelse : forthop := fun h f =>
  match f.Pop with
  | (f1, .panic e) => (f1, some e)
  | (f1, .ok sx) =>
    let x := (Atoi h sx).1
    match f1.Pop with
    | (f2, .panic e) => (f2, some e)
    | (f2, .ok y) =>
      match f2.Pop with
      | (f3, .panic e) => (f3, some e)
      | (f3, .ok z) =>
        if x ≠ 0 then (f3.Push y, none) else (f3.Push z, none)

/-- The operator `hostname`: panics with the plain string `"No hostname"` when
the host cannot tell its name. -/
def hostname : forthop := fun h f =>
  match h.hostname with
  | none => (f, some (.other "No hostname"))
  | some n => (f.Push n, none)

/-- The operator `hostbase`. -/
def hostbase : forthop := fun _ f =>
  match f.Pop with
  | (f1, .panic e) => (f1, some e)
  | (f1, .ok host) => (f1.Push (TrimLeft host "abcdefghijklmnopqrstuvwxyz -"), none)

/-- The operator table: a name is bound to an operator or to nothing (a missing
key and a `nil` entry both read as `nil`). -/
abbrev Registry := String → Option forthop

/-- The initial value of the package variable `opmap`. -/
def opmap : Registry := fun n =>
  if n = "+" then some plus
  else if n = "-" then some sub
  else if n = "*" then some times
  else if n = "/" then some div
  else if n = "%" then some mod
  else if n = "swap" then some swap
  else if n = "ifelse" then some ifelse
  else if n = "hostname" then some hostname
  else if n = "hostbase" then some hostbase
  else if n = "strcat" then some strcat
  else if n = "roundup" then some roundup
  else if n = "dup" then some dup
  else none

/-- `Newop`: `opmap[n] = op`; the stack is not touched. -/
def Newop (r : Registry) (n : String) (op : Option forthop) : Registry :=
  fun k => if k = n then op else r k

/-! ## The evaluator -/

/-- What the caller of `Eval` observes: the two results, or a panic that
leaves `Eval`. `err` is the text of the `os.Error`, `none` for `nil`. -/
inductive Outcome
  | returned (ret : String) (err : Option String)
  | panicked (v : PanicVal)
deriving DecidableEq

/-- The `for` loop of `Eval` over the pieces of the split expression. A panic
ends the loop at once. -/
def evalTokens (h : Host) (r : Registry) : List String → forthstack → forthstack × Option PanicVal
  | [], f => (f, none)
  | val :: rest, f =>
    if val.length = 0 ∨ val = " " then evalTokens h r rest f
    else
      match r val with
      | some fn =>
        match fn h f with
        | (f1, some e) => (f1, some e)
        | (f1, none) => evalTokens h r rest f1
      | none => evalTokens h r rest (f.Push val)

/-- The deferred `errRecover`: no panic leaves the results alone; a
`runtime.Error` is raised again; another `os.Error` becomes `err`; for any other
value the assertion `e.(os.Error)` itself panics. -/
def errRecover (e : Option PanicVal) (ret : String) (err : Option String) : Outcome :=
  match e with
  | none => .returned ret err
  | some (.runtimeError m) => .panicked (.runtimeError m)
  | some (.osError m) => .returned ret (some m)
  | some (.other _) => .panicked assertError

/-- `Eval`: run the tokens, then pop the result. `ret` is assigned only by the
final `Pop`, so it is still `""` when a panic is recovered. -/
def Eval (h : Host) (r : Registry) (f : forthstack) (s : String) : forthstack × Outcome :=
  match evalTokens h r (Split s ' ') f with
  | (f1, some e) => (f1, errRecover (some e) "" none)
  | (f1, none) =>
    match f1.Pop with
    | (f2, .panic e) => (f2, errRecover (some e) "" none)
    | (f2, .ok ret) => (f2, errRecover none ret none)

/-! ## Vocabulary of the statements -/

/-- A literal: a token that is not empty, has no space in it and is bound to no
operator, so that the loop pushes it verbatim. -/
def isLiteral (r : Registry) (t : String) : Prop :=
  t.length ≠ 0 ∧ ' ' ∉ t.data ∧ (r t).isNone = true

instance (r : Registry) (t : String) : Decidable (isLiteral r t) := by
  unfold isLiteral; exact inferInstance

/-- An operator whose only `os.Error` panic is "Empty stack", raised with
nothing left on the stack. -/
def PanicsEmpty (op : forthop) : Prop :=
  ∀ (h : Host) (f f' : forthstack) (m : String),
    op h f = (f', some (.osError m)) → m = "Empty stack" ∧ f'.stack = []

/-- The mutable state of the package: the variable `opmap` and one stack. -/
structure State where
  opmap : Registry
  f : forthstack

/-- The method `Newop` seen on the package state: only `opmap` is assigned. -/
def State.Newop (σ : State) (n : String) (op : Option forthop) : State :=
  ⟨Forth.Newop σ.opmap n op, σ.f⟩

/-- The method `Reset` seen on the package state: only `f.stack` is assigned. -/
def State.Reset (σ : State) : State :=
  ⟨σ.opmap, forthstack.Reset σ.f⟩

/-- The characters `hostbase` strips: the lowercase letters a-z, the space and
the hyphen. -/
def inCutset (c : Char) : Prop := ('a' ≤ c ∧ c ≤ 'z') ∨ c = ' ' ∨ c = '-'

instance (c : Char) : Decidable (inCutset c) := by
  unfold inCutset; exact inferInstance

/-- The non-empty pieces of the expression split at the space character. -/
def tokensOf (e : String) : List String :=
  (Split e ' ').filter (fun v => decide (v.length ≠ 0))

/-- An expression that spells the tokens `t, rest` with free spacing: `lead`
spaces in front, `g + 1` spaces before the token of each pair `(g, u)` of
`rest`, and `trail` spaces at the end. -/
def spaced (lead : Nat) (t : String) (rest : List (Nat × String)) (trail : Nat) : String :=
  String.mk (List.replicate lead ' ' ++ t.data ++
    (rest.map (fun p => List.replicate (p.1 + 1) ' ' ++ p.2.data)).flatten ++
    List.replicate trail ' ')

/-! ## The package's own test table, evaluated -/

/-- A 64-bit host called `sb43`. -/
def host64 : Host := ⟨true, some "sb43"⟩

/-- A 32-bit host that cannot tell its name. -/
def host32 : Host := ⟨false, none⟩

example : Eval host64 opmap New "hostname" = (⟨[]⟩, .returned "sb43" none) := by decide
example : Eval host64 opmap New "2" = (⟨[]⟩, .returned "2" none) := by decide
example : Eval host64 opmap New "" = (⟨[]⟩, .returned "" (some "Empty stack")) := by decide
example : Eval host64 opmap New "2 2 +" = (⟨[]⟩, .returned "4" none) := by decide
example : Eval host64 opmap New "4 2 -" = (⟨[]⟩, .returned "2" none) := by decide
example : Eval host64 opmap New "4 2 *" = (⟨[]⟩, .returned "8" none) := by decide
example : Eval host64 opmap New "4 2 /" = (⟨[]⟩, .returned "2" none) := by decide
example : Eval host64 opmap New "5 2 %" = (⟨[]⟩, .returned "1" none) := by decide
example : Eval host64 opmap New "sb43 hostbase" = (⟨[]⟩, .returned "43" none) := by decide
example : Eval host64 opmap New "2 4 swap /" = (⟨[]⟩, .returned "2" none) := by decide
example : Eval host64 opmap New "0 1 1 ifelse" = (⟨[]⟩, .returned "1" none) := by decide
example : Eval host64 opmap New "0 1 0 ifelse" = (⟨[]⟩, .returned "0" none) := by decide
example : Eval host64 opmap New "str cat strcat" = (⟨[]⟩, .returned "strcat" none) := by decide
example : Eval host64 opmap New "1 dup +" = (⟨[]⟩, .returned "2" none) := by decide
example : Eval host64 opmap New "4095 4096 roundup" = (⟨[]⟩, .returned "4096" none) := by decide
example : Eval host64 opmap New "4097 8192 roundup" = (⟨[]⟩, .returned "8192" none) := by decide

/-! ## Machine integers: basic facts -/

theorem intSize_cases (h : Host) : h.intSize = 32 ∨ h.intSize = 64 := by
  unfold Host.intSize; cases h.int64 <;> simp

theorem wrap_of_inRange (h : Host) (z : Int) (hz : h.inRange z) : h.wrap z = z := by
  unfold Host.inRange Host.minInt Host.maxInt at hz
  unfold Host.wrap
  rcases intSize_cases h with hs | hs <;> rw [hs] at hz ⊢ <;> norm_num at hz ⊢ <;> omega

theorem wrap_wrap_add (h : Host) (a b : Int) : h.wrap (h.wrap a + b) = h.wrap (a + b) := by
  unfold Host.wrap
  rcases intSize_cases h with hs | hs <;> rw [hs] <;> norm_num <;> omega

theorem zero_inRange (h : Host) : h.inRange 0 := by
  unfold Host.inRange Host.minInt Host.maxInt
  rcases intSize_cases h with hs | hs <;> rw [hs] <;> norm_num

theorem small_inRange (h : Host) (z : Int) (h1 : -2147483648 ≤ z) (h2 : z ≤ 2147483647) :
    h.inRange z := by
  unfold Host.inRange Host.minInt Host.maxInt
  rcases intSize_cases h with hs | hs <;> rw [hs] <;> norm_num <;> omega

/-! ## Decimal text: `Itoa` then `Atoi` -/

theorem digitVal_digitChar (d : Nat) (hd : d < 10) : digitVal (digitChar d) = d := by
  interval_cases d <;> rfl

theorem isDigit_digitChar (d : Nat) (hd : d < 10) : isDigit (digitChar d) = true := by
  interval_cases d <;> rfl

theorem parseDigits_snoc (cs : List Char) (c : Char) :
    parseDigits (cs ++ [c]) = parseDigits cs * 10 + digitVal c := by
  simp [parseDigits, List.foldl_append]

theorem parseDigits_natDigits (n : Nat) : ∀ fuel, n < fuel → parseDigits (natDigits fuel n) = n := by
  induction n using Nat.strong_induction_on with
  | _ n ih =>
    intro fuel hf
    cases fuel with
    | zero => omega
    | succ k =>
      unfold natDigits
      by_cases h10 : n < 10
      · simp [h10, parseDigits, digitVal_digitChar n h10]
      · rw [if_neg h10, parseDigits_snoc, ih (n / 10) (by omega) k (by omega),
          digitVal_digitChar _ (Nat.mod_lt _ (by norm_num))]
        omega

theorem natDigits_isDigit : ∀ (fuel n : Nat) (c : Char), c ∈ natDigits fuel n → isDigit c = true := by
  intro fuel
  induction fuel with
  | zero => intro n c hc; simp [natDigits] at hc
  | succ k ih =>
    intro n c hc
    unfold natDigits at hc
    by_cases h10 : n < 10
    · rw [if_pos h10] at hc
      simp at hc
      rw [hc]; exact isDigit_digitChar n h10
    · rw [if_neg h10] at hc
      rcases List.mem_append.mp hc with hc | hc
      · exact ih _ _ hc
      · simp at hc
        rw [hc]; exact isDigit_digitChar _ (Nat.mod_lt _ (by norm_num))

theorem natDigits_ne_nil (k n : Nat) : natDigits (k + 1) n ≠ [] := by
  unfold natDigits
  by_cases h10 : n < 10 <;> simp [h10]

theorem natDigits_all (fuel n : Nat) : (natDigits fuel n).all isDigit = true := by
  rw [List.all_eq_true]
  exact fun c hc => natDigits_isDigit fuel n c hc

/-- The characters of `Itoa z`: an optional `-` and then a non-empty run of digits. -/
theorem Itoa_data (z : Int) :
    ∃ ds : List Char, ds ≠ [] ∧ (∀ c ∈ ds, isDigit c = true) ∧ parseDigits ds = z.natAbs ∧
      (Itoa z).data = if z < 0 then '-' :: ds else ds := by
  refine ⟨natDigits (z.natAbs + 1) z.natAbs, natDigits_ne_nil _ _, natDigits_isDigit _ _,
    parseDigits_natDigits _ _ (by omega), ?_⟩
  unfold Itoa
  by_cases hz : z < 0 <;> simp [hz]

theorem Atoi_Itoa (h : Host) (a : Int) (ha : h.inRange a) : Atoi h (Itoa a) = (a, none) := by
  obtain ⟨ds, hne, hdig, hval, hdata⟩ := Itoa_data a
  have hall : ds.all isDigit = true := by rw [List.all_eq_true]; exact hdig
  have hemp : ds.isEmpty = false := by cases ds <;> simp_all
  unfold Host.inRange at ha
  unfold Atoi
  by_cases hz : a < 0
  · rw [if_pos hz] at hdata
    rw [hdata]
    have hv : -(parseDigits ds : Int) = a := by rw [hval]; omega
    simp [hall, hemp, hv]
    rw [if_neg (not_lt.mpr ha.1), if_neg (not_lt.mpr ha.2)]
  · rw [if_neg hz] at hdata
    rw [hdata]
    obtain ⟨c, cs, rfl⟩ := List.exists_cons_of_ne_nil hne
    have hc : isDigit c = true := hdig c (List.mem_cons_self _ _)
    have hp : c ≠ '+' := by rintro rfl; exact absurd hc (by decide)
    have hm : c ≠ '-' := by rintro rfl; exact absurd hc (by decide)
    have hv : (parseDigits (c :: cs) : Int) = a := by rw [hval]; omega
    simp [hp, hm, hall, hv]
    rw [if_neg (not_lt.mpr ha.1), if_neg (not_lt.mpr ha.2)]

/-! ## The stack -/

theorem Pop_nil : (forthstack.mk []).Pop = (⟨[]⟩, .panic EmptyStack) := rfl

theorem Pop_snoc (s : List String) (v : String) :
    (forthstack.mk (s ++ [v])).Pop = (⟨s⟩, .ok v) := by
  simp [forthstack.Pop, List.getLastD_eq_getLast?]

theorem Pop_snoc2 (s : List String) (y x : String) :
    (forthstack.mk (s ++ [y, x])).Pop = (⟨s ++ [y]⟩, .ok x) := by
  have e : s ++ [y, x] = (s ++ [y]) ++ [x] := by simp
  rw [e, Pop_snoc]

/-- The two ways a `Pop` can go. -/
theorem Pop_cases (f : forthstack) :
    (f.stack = [] ∧ f.Pop = (f, .panic EmptyStack)) ∨
    (∃ s v, f.stack = s ++ [v] ∧ f.Pop = (⟨s⟩, .ok v)) := by
  obtain ⟨l⟩ := f
  rcases List.eq_nil_or_concat l with rfl | ⟨s, v, rfl⟩
  · exact Or.inl ⟨rfl, rfl⟩
  · exact Or.inr ⟨s, v, by simp, by simpa using Pop_snoc s v⟩

/-! ## Splitting and joining -/

theorem splitChars_no_sep (sep : Char) (w : List Char) (hw : sep ∉ w) :
    splitChars sep w = [w] := by
  induction w with
  | nil => rfl
  | cons c cs ih =>
    have hc : c ≠ sep := fun e => hw (by simp [e])
    have hcs : sep ∉ cs := fun e => hw (List.mem_cons_of_mem _ e)
    simp [splitChars, hc, ih hcs]

theorem splitChars_append (sep : Char) (w rest : List Char) (hw : sep ∉ w) :
    splitChars sep (w ++ sep :: rest) = w :: splitChars sep rest := by
  induction w with
  | nil => simp [splitChars]
  | cons c cs ih =>
    have hc : c ≠ sep := fun e => hw (by simp [e])
    have hcs : sep ∉ cs := fun e => hw (List.mem_cons_of_mem _ e)
    simp [splitChars, hc, ih hcs]

theorem splitChars_replicate (sep : Char) (n : Nat) :
    splitChars sep (List.replicate n sep) = List.replicate (n + 1) [] := by
  induction n with
  | zero => rfl
  | succ k ih => simp [List.replicate_succ, splitChars, ih]

theorem intercalate_go_data (sep : String) (as : List String) :
    ∀ acc : String, (String.intercalate.go acc sep as).data =
      acc.data ++ (as.map (fun a => sep.data ++ a.data)).flatten := by
  induction as with
  | nil => intro acc; simp [String.intercalate.go]
  | cons a as ih => intro acc; simp [String.intercalate.go, ih, String.data_append]

theorem intercalate_data (sep a : String) (as : List String) :
    (sep.intercalate (a :: as)).data = a.data ++ (as.map (fun x => sep.data ++ x.data)).flatten := by
  simp [String.intercalate, intercalate_go_data]

theorem splitChars_joined (as : List String) (has : ∀ x ∈ as, ' ' ∉ x.data) :
    ∀ a : String, ' ' ∉ a.data →
      splitChars ' ' (a.data ++ (as.map (fun x => " ".data ++ x.data)).flatten) =
        a.data :: as.map String.data := by
  induction as with
  | nil => intro a ha; simpa using splitChars_no_sep ' ' a.data ha
  | cons b bs ih =>
    intro a ha
    have hb := has b (List.mem_cons_self _ _)
    have hbs : ∀ x ∈ bs, ' ' ∉ x.data := fun x hx => has x (List.mem_cons_of_mem _ hx)
    have e : a.data ++ ((b :: bs).map (fun x => " ".data ++ x.data)).flatten =
        a.data ++ ' ' :: (b.data ++ (bs.map (fun x => " ".data ++ x.data)).flatten) := by
      simp
    rw [e, splitChars_append ' ' _ _ ha, ih hbs b hb]
    simp

/-- Splitting the join of space-free tokens gives the tokens back. -/
theorem Split_intercalate (a : String) (as : List String)
    (hall : ∀ x ∈ a :: as, ' ' ∉ x.data) :
    Split (" ".intercalate (a :: as)) ' ' = a :: as := by
  unfold Split
  rw [intercalate_data, splitChars_joined as (fun x hx => hall x (List.mem_cons_of_mem _ hx)) a
    (hall a (List.mem_cons_self _ _))]
  simp [List.map_map, Function.comp_def]

/-! ## The token loop -/

theorem evalTokens_literal (h : Host) (r : Registry) (t : String) (rest : List String)
    (f : forthstack) (ht : isLiteral r t) :
    evalTokens h r (t :: rest) f = evalTokens h r rest (f.Push t) := by
  obtain ⟨h1, h2, h3⟩ := ht
  rw [Option.isNone_iff_eq_none] at h3
  have h4 : t ≠ " " := by rintro rfl; exact h2 (by decide)
  simp [evalTokens, h1, h4, h3]

theorem evalTokens_literals (h : Host) (r : Registry) (ts : List String)
    (hts : ∀ t ∈ ts, isLiteral r t) :
    ∀ f : forthstack, evalTokens h r ts f = (⟨f.stack ++ ts⟩, none) := by
  induction ts with
  | nil => intro f; simp [evalTokens]
  | cons t ts ih =>
    intro f
    rw [evalTokens_literal h r t ts f (hts t (List.mem_cons_self _ _)),
      ih (fun x hx => hts x (List.mem_cons_of_mem _ hx))]
    simp [forthstack.Push]

theorem evalTokens_append (h : Host) (r : Registry) (ts us : List String) :
    ∀ f : forthstack, evalTokens h r (ts ++ us) f =
      match evalTokens h r ts f with
      | (f1, some e) => (f1, some e)
      | (f1, none) => evalTokens h r us f1 := by
  induction ts with
  | nil => intro f; simp [evalTokens]
  | cons t ts ih =>
    intro f
    simp only [List.cons_append, evalTokens]
    split
    · exact ih f
    · split
      · split
        · rfl
        · exact ih _
      · exact ih _

theorem evalTokens_blank (h : Host) (r : Registry) (n : Nat) (f : forthstack) :
    evalTokens h r (List.replicate n "") f = (f, none) := by
  induction n with
  | zero => rfl
  | succ k ih => simp [List.replicate_succ, evalTokens, ih]

/-! ## Claims about `Pop` and about literal expressions -/

/-- C1: `Pop` panics exactly when the stack has no element, the panic value is
then the `os.Error` with text "Empty stack" and the stack is left as it was;
on a stack `s ++ [v]` it returns `v` and leaves `s`. -/
theorem Pop_contract (f : forthstack) :
    ((∃ e, f.Pop.2 = .panic e) ↔ f.Length = 0) ∧
    (f.Pop.2 = .panic (.osError "Empty stack") ↔ f.Length = 0) ∧
    (f.Length = 0 → f.Pop.1 = f) ∧
    (∀ (s : List String) (v : String), (forthstack.mk (s ++ [v])).Pop = (⟨s⟩, .ok v)) := by
  refine ⟨?_, ?_, ?_, Pop_snoc⟩
  all_goals
    rcases Pop_cases f with ⟨h0, hp⟩ | ⟨s, v, hs, hp⟩
    · simp [hp, forthstack.Length, h0, EmptyStack]
    · simp [hp, forthstack.Length, hs]

theorem Pop_contract_witness :
    (forthstack.mk []).Pop.1 = ⟨[]⟩ ∧
    (forthstack.mk (["a"] ++ ["b"])).Pop = (⟨["a"]⟩, .ok "b") :=
  ⟨(Pop_contract ⟨[]⟩).2.2.1 rfl, (Pop_contract ⟨[]⟩).2.2.2 ["a"] "b"⟩

/-- C2: for tokens `t1 .. tn` that are non-empty, free of spaces and bound to no
operator, `Eval` of their join by single spaces on an empty stack returns `tn`
with no error and leaves `t1 .. t(n-1)` on the stack in push order; a single
literal is returned and the stack is left empty. -/
theorem Eval_literals (h : Host) (r : Registry) (ts : List String) (t : String)
    (hlit : ∀ x ∈ ts ++ [t], isLiteral r x) :
    Eval h r New (" ".intercalate (ts ++ [t])) = (⟨ts⟩, .returned t none) ∧
    Eval h r New t = (⟨[]⟩, .returned t none) := by
  have key : ∀ us : List String, (∀ x ∈ us ++ [t], isLiteral r x) →
      Eval h r New (" ".intercalate (us ++ [t])) = (⟨us⟩, .returned t none) := by
    intro us hus
    obtain ⟨a, as, e⟩ : ∃ a as, us ++ [t] = a :: as := by
      cases us with
      | nil => exact ⟨t, [], rfl⟩
      | cons u us => exact ⟨u, us ++ [t], rfl⟩
    have hsp : Split (" ".intercalate (us ++ [t])) ' ' = us ++ [t] := by
      rw [e]
      exact Split_intercalate a as (fun x hx => (hus x (e ▸ hx)).2.1)
    unfold Eval
    rw [hsp, evalTokens_literals h r _ hus]
    simp [New, Pop_snoc, errRecover]
  refine ⟨key ts hlit, ?_⟩
  have h1 := key [] (fun x hx => hlit x (by simp at hx ⊢; exact Or.inr hx))
  simpa [String.intercalate, String.intercalate.go] using h1

theorem Eval_literals_witness :
    Eval host64 opmap New (" ".intercalate (["10", "x", "abc"] ++ ["z9"])) =
      (⟨["10", "x", "abc"]⟩, .returned "z9" none) ∧
    Eval host64 opmap New "z9" = (⟨[]⟩, .returned "z9" none) :=
  Eval_literals host64 opmap ["10", "x", "abc"] "z9" (by decide)

/-- C3: on an empty stack, `Eval` of the empty expression, and of every
expression made only of spaces, finds no token to process (every piece of the
split is empty), so that the final `Pop` fails: it returns the error
"Empty stack" and the empty string, and the stack stays empty. -/
theorem Eval_blank (h : Host) (r : Registry) (n : Nat) :
    Eval h r New "" = (⟨[]⟩, .returned "" (some "Empty stack")) ∧
    (Split (String.mk (List.replicate n ' ')) ' ').filter (fun v => ¬ (v.length = 0 ∨ v = " ")) = [] ∧
    Eval h r New (String.mk (List.replicate n ' ')) =
      (⟨[]⟩, .returned "" (some "Empty stack")) := by
  have hsp : Split (String.mk (List.replicate n ' ')) ' ' = List.replicate (n + 1) "" := by
    simp [Split, splitChars_replicate]
  have hev : Eval h r New (String.mk (List.replicate n ' ')) =
      (⟨[]⟩, .returned "" (some "Empty stack")) := by
    unfold Eval
    rw [hsp, evalTokens_blank]
    rfl
  refine ⟨?_, ?_, hev⟩
  · unfold Eval
    have : Split "" ' ' = List.replicate 1 "" := rfl
    rw [this, evalTokens_blank]
    rfl
  · rw [hsp]
    simp

/-! ## Panics of the built-in operators -/

theorem builtin_PanicsEmpty (op : forthop)
    (hop : op ∈ [plus, sub, times, div, mod, swap, ifelse, hostname, hostbase, strcat,
      roundup, dup]) : PanicsEmpty op := by
  intro h f f' m hp
  simp only [List.mem_cons, List.mem_singleton, List.not_mem_nil, or_false] at hop
  rcases Pop_cases f with ⟨h0, e0⟩ | ⟨s, x, hs, e0⟩
  · rcases hop with rfl | rfl | rfl | rfl | rfl | rfl | rfl | rfl | rfl | rfl | rfl | rfl
    case inr.inr.inr.inr.inr.inr.inr.inl =>
      unfold hostname at hp
      cases hn : h.hostname <;> simp [hn] at hp
    all_goals
      simp [plus, sub, times, div, mod, swap, ifelse, hostbase, strcat, roundup, dup,
        e0, EmptyStack] at hp
      obtain ⟨rfl, rfl⟩ := hp
      exact ⟨rfl, h0⟩
  · rcases Pop_cases ⟨s⟩ with ⟨h1, e1⟩ | ⟨s1, y, hs1, e1⟩
    · rcases hop with rfl | rfl | rfl | rfl | rfl | rfl | rfl | rfl | rfl | rfl | rfl | rfl
      case inr.inr.inr.inr.inr.inr.inr.inl =>
        unfold hostname at hp
        cases hn : h.hostname <;> simp [hn] at hp
      all_goals
        simp [plus, sub, times, div, mod, swap, ifelse, hostbase, strcat, roundup, dup,
          e0, e1, EmptyStack] at hp
      all_goals
        obtain ⟨rfl, rfl⟩ := hp
        exact ⟨rfl, h1⟩
    · rcases Pop_cases ⟨s1⟩ with ⟨h2, e2⟩ | ⟨s2, z, hs2, e2⟩
      · rcases hop with rfl | rfl | rfl | rfl | rfl | rfl | rfl | rfl | rfl | rfl | rfl | rfl
        case inr.inr.inr.inr.inr.inr.inr.inl =>
          unfold hostname at hp
          cases hn : h.hostname <;> simp [hn] at hp
        all_goals
          simp [plus, sub, times, div, mod, swap, ifelse, hostbase, strcat, roundup, dup,
            e0, e1, e2, EmptyStack, divideError] at hp
        all_goals
          first
            | (obtain ⟨rfl, rfl⟩ := hp
               exact ⟨rfl, h2⟩)
            | (split at hp <;> simp at hp)
      · rcases hop with rfl | rfl | rfl | rfl | rfl | rfl | rfl | rfl | rfl | rfl | rfl | rfl
        case inr.inr.inr.inr.inr.inr.inr.inl =>
          unfold hostname at hp
          cases hn : h.hostname <;> simp [hn] at hp
        all_goals
          simp [plus, sub, times, div, mod, swap, ifelse, hostbase, strcat, roundup, dup,
            e0, e1, e2, EmptyStack, divideError] at hp
        all_goals
          split at hp <;> simp at hp

/-- The twelve bindings of the initial operator table, and nothing else. -/
theorem opmap_cases (n : String) :
    (n = "+" ∧ opmap n = some plus) ∨
    (n = "-" ∧ opmap n = some sub) ∨
    (n = "*" ∧ opmap n = some times) ∨
    (n = "/" ∧ opmap n = some div) ∨
    (n = "%" ∧ opmap n = some mod) ∨
    (n = "swap" ∧ opmap n = some swap) ∨
    (n = "ifelse" ∧ opmap n = some ifelse) ∨
    (n = "hostname" ∧ opmap n = some hostname) ∨
    (n = "hostbase" ∧ opmap n = some hostbase) ∨
    (n = "strcat" ∧ opmap n = some strcat) ∨
    (n = "roundup" ∧ opmap n = some roundup) ∨
    (n = "dup" ∧ opmap n = some dup) ∨
    opmap n = none := by
  unfold opmap
  by_cases h0 : n = "+"
  · exact Or.inl ⟨h0, if_pos h0⟩
  rw [if_neg h0]
  by_cases h1 : n = "-"
  · exact Or.inr (Or.inl ⟨h1, if_pos h1⟩)
  rw [if_neg h1]
  by_cases h2 : n = "*"
  · exact Or.inr (Or.inr (Or.inl ⟨h2, if_pos h2⟩))
  rw [if_neg h2]
  by_cases h3 : n = "/"
  · exact Or.inr (Or.inr (Or.inr (Or.inl ⟨h3, if_pos h3⟩)))
  rw [if_neg h3]
  by_cases h4 : n = "%"
  · exact Or.inr (Or.inr (Or.inr (Or.inr (Or.inl ⟨h4, if_pos h4⟩))))
  rw [if_neg h4]
  by_cases h5 : n = "swap"
  · exact Or.inr (Or.inr (Or.inr (Or.inr (Or.inr (Or.inl ⟨h5, if_pos h5⟩)))))
  rw [if_neg h5]
  by_cases h6 : n = "ifelse"
  · exact Or.inr (Or.inr (Or.inr (Or.inr (Or.inr (Or.inr (Or.inl ⟨h6, if_pos h6⟩))))))
  rw [if_neg h6]
  by_cases h7 : n = "hostname"
  · exact Or.inr (Or.inr (Or.inr (Or.inr (Or.inr (Or.inr (Or.inr (Or.inl ⟨h7, if_pos h7⟩)))))))
  rw [if_neg h7]
  by_cases h8 : n = "hostbase"
  · exact Or.inr (Or.inr (Or.inr (Or.inr (Or.inr (Or.inr (Or.inr (Or.inr (Or.inl ⟨h8, if_pos h8⟩))))))))
  rw [if_neg h8]
  by_cases h9 : n = "strcat"
  · exact Or.inr (Or.inr (Or.inr (Or.inr (Or.inr (Or.inr (Or.inr (Or.inr (Or.inr (Or.inl ⟨h9, if_pos h9⟩)))))))))
  rw [if_neg h9]
  by_cases h10 : n = "roundup"
  · exact Or.inr (Or.inr (Or.inr (Or.inr (Or.inr (Or.inr (Or.inr (Or.inr (Or.inr (Or.inr (Or.inl ⟨h10, if_pos h10⟩))))))))))
  rw [if_neg h10]
  by_cases h11 : n = "dup"
  · exact Or.inr (Or.inr (Or.inr (Or.inr (Or.inr (Or.inr (Or.inr (Or.inr (Or.inr (Or.inr (Or.inr (Or.inl ⟨h11, if_pos h11⟩)))))))))))
  rw [if_neg h11]
  exact Or.inr (Or.inr (Or.inr (Or.inr (Or.inr (Or.inr (Or.inr (Or.inr (Or.inr (Or.inr (Or.inr (Or.inr (rfl))))))))))))

theorem opmap_mem (n : String) (fn : forthop) (hn : opmap n = some fn) :
    fn ∈ [plus, sub, times, div, mod, swap, ifelse, hostname, hostbase, strcat, roundup, dup] := by
  rcases opmap_cases n with ⟨_, e⟩ | ⟨_, e⟩ | ⟨_, e⟩ | ⟨_, e⟩ | ⟨_, e⟩ | ⟨_, e⟩ | ⟨_, e⟩ |
    ⟨_, e⟩ | ⟨_, e⟩ | ⟨_, e⟩ | ⟨_, e⟩ | ⟨_, e⟩ | e
  all_goals
    rw [e] at hn
    first
      | (cases hn; simp only [List.mem_cons, true_or, or_true])
      | exact absurd hn (by simp)

theorem opmap_PanicsEmpty (n : String) (fn : forthop) (hn : opmap n = some fn) :
    PanicsEmpty fn :=
  builtin_PanicsEmpty fn (opmap_mem n fn hn)

/-- When every bound operator raises `os.Error` panics only as "Empty stack" on
an emptied stack, so does the token loop. -/
theorem evalTokens_osError (h : Host) (r : Registry)
    (hr : ∀ n fn, r n = some fn → PanicsEmpty fn) (ts : List String) :
    ∀ (f f' : forthstack) (m : String), evalTokens h r ts f = (f', some (.osError m)) →
      m = "Empty stack" ∧ f'.stack = [] := by
  induction ts with
  | nil => intro f f' m hp; simp [evalTokens] at hp
  | cons t ts ih =>
    intro f f' m hp
    unfold evalTokens at hp
    split at hp
    · exact ih _ _ _ hp
    · split at hp
      · rename_i fn hfn
        split at hp
        · rename_i f1 e he
          simp only [Prod.mk.injEq, Option.some.injEq] at hp
          obtain ⟨rfl, rfl⟩ := hp
          exact hr t fn hfn h f _ m he
        · exact ih _ _ _ hp
      · exact ih _ _ _ hp

/-! ## The arithmetic operators on two operands -/

theorem plus_eq (h : Host) (s : List String) (y x : String) :
    plus h ⟨s ++ [y, x]⟩ = (⟨s ++ [Itoa (h.wrap ((Atoi h x).1 + (Atoi h y).1))]⟩, none) := by
  simp [plus, Pop_snoc2, Pop_snoc, forthstack.Push]

theorem times_eq (h : Host) (s : List String) (y x : String) :
    times h ⟨s ++ [y, x]⟩ = (⟨s ++ [Itoa (h.wrap ((Atoi h x).1 * (Atoi h y).1))]⟩, none) := by
  simp [times, Pop_snoc2, Pop_snoc, forthstack.Push]

theorem sub_eq (h : Host) (s : List String) (y x : String) :
    sub h ⟨s ++ [y, x]⟩ = (⟨s ++ [Itoa (h.wrap ((Atoi h y).1 - (Atoi h x).1))]⟩, none) := by
  simp [sub, Pop_snoc2, Pop_snoc, forthstack.Push]

theorem div_eq (h : Host) (s : List String) (y x : String) :
    div h ⟨s ++ [y, x]⟩ =
      if (Atoi h x).1 = 0 then (⟨s⟩, some divideError)
      else (⟨s ++ [Itoa (h.wrap (Int.tdiv (Atoi h y).1 (Atoi h x).1))]⟩, none) := by
  simp [div, Pop_snoc2, Pop_snoc, forthstack.Push]

theorem mod_eq (h : Host) (s : List String) (y x : String) :
    mod h ⟨s ++ [y, x]⟩ =
      if (Atoi h x).1 = 0 then (⟨s⟩, some divideError)
      else (⟨s ++ [Itoa (h.wrap (Int.tmod (Atoi h y).1 (Atoi h x).1))]⟩, none) := by
  simp [mod, Pop_snoc2, Pop_snoc, forthstack.Push]

theorem roundup_eq (h : Host) (s : List String) (sv srnd : String) :
    roundup h ⟨s ++ [sv, srnd]⟩ =
      if (Atoi h srnd).1 = 0 then (⟨s⟩, some divideError)
      else (⟨s ++ [Itoa (h.wrap (h.wrap (Int.tdiv
        (h.wrap (h.wrap ((Atoi h sv).1 + (Atoi h srnd).1) - 1)) (Atoi h srnd).1) *
          (Atoi h srnd).1))]⟩, none) := by
  simp [roundup, Pop_snoc2, Pop_snoc, forthstack.Push]

theorem swap_eq (h : Host) (s : List String) (y x : String) :
    swap h ⟨s ++ [y, x]⟩ = (⟨s ++ [x, y]⟩, none) := by
  simp [swap, Pop_snoc2, Pop_snoc, forthstack.Push]

/-- One bound token, processed by the loop. -/
theorem evalTokens_op (h : Host) (r : Registry) (t : String) (fn : forthop) (rest : List String)
    (f : forthstack) (h1 : t.length ≠ 0) (h2 : t ≠ " ") (hfn : r t = some fn) :
    evalTokens h r (t :: rest) f =
      match fn h f with
      | (f1, some e) => (f1, some e)
      | (f1, none) => evalTokens h r rest f1 := by
  simp [evalTokens, h1, h2, hfn]

/-! ## Decimal renderings are literals -/

theorem Itoa_chars (z : Int) : ∀ c ∈ (Itoa z).data, isDigit c = true ∨ c = '-' := by
  obtain ⟨ds, _, hdig, _, hdata⟩ := Itoa_data z
  intro c hc
  rw [hdata] at hc
  split_ifs at hc
  · rcases List.mem_cons.mp hc with rfl | hc
    · exact Or.inr rfl
    · exact Or.inl (hdig c hc)
  · exact Or.inl (hdig c hc)

theorem Itoa_has_digit (z : Int) : ∃ c ∈ (Itoa z).data, isDigit c = true := by
  obtain ⟨ds, hne, hdig, _, hdata⟩ := Itoa_data z
  obtain ⟨c, cs, rfl⟩ := List.exists_cons_of_ne_nil hne
  refine ⟨c, ?_, hdig c (List.mem_cons_self _ _)⟩
  rw [hdata]
  split_ifs <;> simp

theorem opmap_name_no_digit (n : String) (hn : (opmap n).isSome = true) :
    ∀ c ∈ n.data, isDigit c = false := by
  rcases opmap_cases n with ⟨rfl, _⟩ | ⟨rfl, _⟩ | ⟨rfl, _⟩ | ⟨rfl, _⟩ | ⟨rfl, _⟩ | ⟨rfl, _⟩ |
    ⟨rfl, _⟩ | ⟨rfl, _⟩ | ⟨rfl, _⟩ | ⟨rfl, _⟩ | ⟨rfl, _⟩ | ⟨rfl, _⟩ | e
  all_goals first
    | decide
    | (rw [e] at hn; exact absurd hn (by simp))

theorem Itoa_isLiteral (z : Int) : isLiteral opmap (Itoa z) := by
  refine ⟨?_, ?_, ?_⟩
  · obtain ⟨c, hc, _⟩ := Itoa_has_digit z
    intro h0
    have : (Itoa z).data = [] := List.eq_nil_of_length_eq_zero h0
    rw [this] at hc
    exact absurd hc (List.not_mem_nil _)
  · intro hsp
    rcases Itoa_chars z ' ' hsp with hd | hd
    · exact absurd hd (by decide)
    · exact absurd hd (by decide)
  · by_contra hsome
    have hs : (opmap (Itoa z)).isSome = true := by
      cases hv : opmap (Itoa z) <;> simp_all
    obtain ⟨c, hc, hd⟩ := Itoa_has_digit z
    rw [opmap_name_no_digit _ hs c hc] at hd
    exact absurd hd (by decide)

/-! ## Claims about the stack left by `Eval` and about `+`, `-`, `*` -/

/-- C4 (as stated, refuted): on an empty stack `Eval` of "1 2" returns "2" with
no error and leaves one element, so `Length()` is 1 and `Empty()` is false;
hence it is not true that the stack is empty again after every evaluation. -/
theorem Eval_not_always_empty :
    Eval host64 opmap New "1 2" = (⟨["1"]⟩, .returned "2" none) ∧
    (Eval host64 opmap New "1 2").1.Length = 1 ∧
    (Eval host64 opmap New "1 2").1.Empty = false ∧
    ¬ (∀ s : String, (Eval host64 opmap New s).1.Length = 0 ∧
        (Eval host64 opmap New s).1.Empty = true) := by
  refine ⟨by decide, by decide, by decide, ?_⟩
  intro hall
  exact absurd (hall "1 2").1 (by decide)

/-- C4 (amended): with the built-in operators, when `Eval` is called on an empty
stack and returns an error, the error is "Empty stack", no result is returned
and the stack is empty (`Length() = 0`, `Empty() = true`); when it returns a
result, the stack is what the token loop left, less the returned top. So the
stack is empty on return exactly when an error is returned or the token loop
left exactly one value. -/
theorem Eval_final_stack (h : Host) (s : String) (f' : forthstack) (ret : String)
    (err : Option String) (hev : Eval h opmap New s = (f', .returned ret err)) :
    (∀ m, err = some m → m = "Empty stack" ∧ ret = "" ∧ f'.Length = 0 ∧ f'.Empty = true) ∧
    (err = none → evalTokens h opmap (Split s ' ') New = (⟨f'.stack ++ [ret]⟩, none)) ∧
    ((f'.Length = 0 ∧ f'.Empty = true) ↔
      (err ≠ none ∨ (evalTokens h opmap (Split s ' ') New).1.Length = 1)) := by
  unfold Eval at hev
  rcases hloop : evalTokens h opmap (Split s ' ') New with ⟨f1, _ | e⟩
  · rw [hloop] at hev
    rcases Pop_cases f1 with ⟨h0, hp⟩ | ⟨l, v, hl, hp⟩
    · simp [hp, errRecover, EmptyStack] at hev
      obtain ⟨rfl, rfl, rfl⟩ := hev
      simp [forthstack.Length, forthstack.Empty, h0]
    · simp [hp, errRecover] at hev
      obtain ⟨rfl, rfl, rfl⟩ := hev
      obtain ⟨l1⟩ := f1
      simp only at hl
      subst hl
      simp [forthstack.Length, forthstack.Empty]
  · rw [hloop] at hev
    cases e with
    | osError m =>
      obtain ⟨hm, hst⟩ := evalTokens_osError h opmap opmap_PanicsEmpty _ _ _ _ hloop
      simp [errRecover] at hev
      obtain ⟨rfl, rfl, rfl⟩ := hev
      simp [forthstack.Length, forthstack.Empty, hst, hm]
    | runtimeError m => simp [errRecover] at hev
    | other m => simp [errRecover] at hev

theorem Eval_final_stack_witness :
    (∀ m, (none : Option String) = some m →
      m = "Empty stack" ∧ "2" = "" ∧ (forthstack.mk ["1"]).Length = 0 ∧
        (forthstack.mk ["1"]).Empty = true) ∧
    ((none : Option String) = none →
      evalTokens host64 opmap (Split "1 2" ' ') New = (⟨(forthstack.mk ["1"]).stack ++ ["2"]⟩, none)) ∧
    (((forthstack.mk ["1"]).Length = 0 ∧ (forthstack.mk ["1"]).Empty = true) ↔
      ((none : Option String) ≠ none ∨
        (evalTokens host64 opmap (Split "1 2" ' ') New).1.Length = 1)) :=
  Eval_final_stack host64 "1 2" ⟨["1"]⟩ "2" none (by decide)

/-- C5: for `int` values `a` and `b` and every stack `s`, on the stack
`s ++ [dec a, dec b]` the operators `+`, `-` and `*` leave `s ++ [dec (a+b)]`,
`s ++ [dec (a-b)]` and `s ++ [dec (a*b)]`, each when that result is an `int`;
the top of the stack is the subtrahend, so `Eval` of "a b -" returns `a-b`. -/
theorem arith_ops (h : Host) (s : List String) (a b : Int)
    (ha : h.inRange a) (hb : h.inRange b) :
    (h.inRange (a + b) →
      evalTokens h opmap ["+"] ⟨s ++ [Itoa a, Itoa b]⟩ = (⟨s ++ [Itoa (a + b)]⟩, none)) ∧
    (h.inRange (a - b) →
      evalTokens h opmap ["-"] ⟨s ++ [Itoa a, Itoa b]⟩ = (⟨s ++ [Itoa (a - b)]⟩, none)) ∧
    (h.inRange (a * b) →
      evalTokens h opmap ["*"] ⟨s ++ [Itoa a, Itoa b]⟩ = (⟨s ++ [Itoa (a * b)]⟩, none)) ∧
    (h.inRange (a - b) →
      Eval h opmap New (Itoa a ++ " " ++ Itoa b ++ " " ++ "-") =
        (⟨[]⟩, .returned (Itoa (a - b)) none)) := by
  have hsub : h.inRange (a - b) →
      evalTokens h opmap ["-"] ⟨s ++ [Itoa a, Itoa b]⟩ = (⟨s ++ [Itoa (a - b)]⟩, none) := by
    intro hr
    rw [evalTokens_op h opmap "-" sub [] _ (by decide) (by decide) rfl, sub_eq,
      Atoi_Itoa h a ha, Atoi_Itoa h b hb, wrap_of_inRange h _ hr]
    rfl
  refine ⟨?_, hsub, ?_, ?_⟩
  · intro hr
    rw [evalTokens_op h opmap "+" plus [] _ (by decide) (by decide) rfl, plus_eq,
      Atoi_Itoa h a ha, Atoi_Itoa h b hb, add_comm b a, wrap_of_inRange h _ hr]
    rfl
  · intro hr
    rw [evalTokens_op h opmap "*" times [] _ (by decide) (by decide) rfl, times_eq,
      Atoi_Itoa h a ha, Atoi_Itoa h b hb, mul_comm b a, wrap_of_inRange h _ hr]
    rfl
  · intro hr
    have hsp : Split (Itoa a ++ " " ++ Itoa b ++ " " ++ "-") ' ' = [Itoa a, Itoa b, "-"] := by
      refine Split_intercalate (Itoa a) [Itoa b, "-"] ?_
      intro x hx
      simp only [List.mem_cons, List.mem_singleton, List.not_mem_nil, or_false] at hx
      rcases hx with rfl | rfl | rfl
      · exact (Itoa_isLiteral a).2.1
      · exact (Itoa_isLiteral b).2.1
      · decide
    unfold Eval
    rw [hsp, evalTokens_literal h opmap _ _ _ (Itoa_isLiteral a),
      evalTokens_literal h opmap _ _ _ (Itoa_isLiteral b),
      evalTokens_op h opmap "-" sub [] _ (by decide) (by decide) rfl]
    have e : ((New.Push (Itoa a)).Push (Itoa b)) = ⟨[] ++ [Itoa a, Itoa b]⟩ := rfl
    rw [e, sub_eq, Atoi_Itoa h a ha, Atoi_Itoa h b hb, wrap_of_inRange h _ hr]
    simp only [evalTokens, List.nil_append]
    rw [show ([Itoa (a - b)] : List String) = [] ++ [Itoa (a - b)] from rfl, Pop_snoc]
    rfl

theorem arith_ops_witness :
    host64.inRange 7 ∧ host64.inRange (-12) ∧
    evalTokens host64 opmap ["+"] ⟨["k"] ++ [Itoa 7, Itoa (-12)]⟩ =
      (⟨["k"] ++ [Itoa (7 + -12)]⟩, none) ∧
    evalTokens host64 opmap ["-"] ⟨["k"] ++ [Itoa 7, Itoa (-12)]⟩ =
      (⟨["k"] ++ [Itoa (7 - -12)]⟩, none) ∧
    evalTokens host64 opmap ["*"] ⟨["k"] ++ [Itoa 7, Itoa (-12)]⟩ =
      (⟨["k"] ++ [Itoa (7 * -12)]⟩, none) ∧
    Eval host64 opmap New (Itoa 7 ++ " " ++ Itoa (-12) ++ " " ++ "-") =
      (⟨[]⟩, .returned (Itoa (7 - -12)) none) :=
  have w := arith_ops host64 ["k"] 7 (-12) (by decide) (by decide)
  ⟨by decide, by decide, w.1 (by decide), w.2.1 (by decide), w.2.2.1 (by decide),
    w.2.2.2 (by decide)⟩

/-! ## Truncated division -/

theorem tmod_natAbs_lt (a b : Int) (hb : b ≠ 0) : (Int.tmod a b).natAbs < b.natAbs := by
  rcases a with m | m <;> rcases b with n | n
  · have hn : 0 < n := by
      rcases Nat.eq_zero_or_pos n with rfl | h
      · exact absurd rfl hb
      · exact h
    have := Nat.mod_lt m hn
    simp only [Int.tmod, Int.ofNat_eq_coe, Int.natAbs_ofNat]
    exact this
  · have := Nat.mod_lt m (Nat.succ_pos n)
    simp only [Int.tmod, Int.ofNat_eq_coe, Int.natAbs_ofNat, Int.natAbs_negSucc]
    exact this
  · have hn : 0 < n := by
      rcases Nat.eq_zero_or_pos n with rfl | h
      · exact absurd rfl hb
      · exact h
    have := Nat.mod_lt (m + 1) hn
    simp only [Int.tmod, Int.ofNat_eq_coe, Int.natAbs_ofNat, Int.natAbs_neg]
    exact this
  · have := Nat.mod_lt (m + 1) (Nat.succ_pos n)
    simp only [Int.tmod, Int.ofNat_eq_coe, Int.natAbs_ofNat, Int.natAbs_neg, Int.natAbs_negSucc]
    exact this

theorem tmod_sign (a b : Int) :
    (0 ≤ a → 0 ≤ Int.tmod a b) ∧ (a ≤ 0 → Int.tmod a b ≤ 0) := by
  refine ⟨fun h => Int.tmod_nonneg b h, fun h => ?_⟩
  rcases a with m | m <;> rcases b with n | n
  · have : m = 0 := by simp at h; omega
    subst this; simp
  · have : m = 0 := by simp at h; omega
    subst this; simp
  · simp only [Int.tmod, Int.ofNat_eq_coe]; omega
  · simp only [Int.tmod, Int.ofNat_eq_coe]; omega

theorem tdiv_inRange (h : Host) (a b : Int) (ha : h.inRange a)
    (hov : ¬ (a = h.minInt ∧ b = -1)) : h.inRange (Int.tdiv a b) := by
  have hq : (Int.tdiv a b).natAbs = a.natAbs / b.natAbs := Int.natAbs_tdiv a b
  unfold Host.inRange Host.minInt Host.maxInt at *
  by_cases hb1 : b.natAbs = 1
  · have hb : b = 1 ∨ b = -1 := by omega
    rcases hb with rfl | rfl
    · rw [Int.tdiv_one]; exact ha
    · rw [Int.tdiv_neg, Int.tdiv_one]
      rcases intSize_cases h with hs | hs <;> rw [hs] at ha hov ⊢ <;> norm_num at ha hov ⊢ <;>
        omega
  · by_cases hb0 : b.natAbs = 0
    · have : b = 0 := by omega
      subst this
      rw [Int.tdiv_zero]
      rcases intSize_cases h with hs | hs <;> rw [hs] <;> norm_num
    · have h2 : a.natAbs / b.natAbs ≤ a.natAbs / 2 :=
        Nat.div_le_div_left (by omega) (by norm_num)
      rcases intSize_cases h with hs | hs <;> rw [hs] at ha ⊢ <;> norm_num at ha ⊢ <;> omega

theorem tmod_inRange (h : Host) (a b : Int) (hb : h.inRange b) (hb0 : b ≠ 0) :
    h.inRange (Int.tmod a b) := by
  have hlt := tmod_natAbs_lt a b hb0
  unfold Host.inRange Host.minInt Host.maxInt at *
  rcases intSize_cases h with hs | hs <;> rw [hs] at hb ⊢ <;> norm_num at hb ⊢ <;> omega

/-! ## Claims about `/` and `%` -/

/-- C6 (as stated, refuted): on a 64-bit host, with `a` the smallest `int` and
`b = -1`, the operator `/` leaves `dec a` itself, not the rendering of the
quotient `a/b = 2^63` truncated toward zero, and the value left, times `b`, is
not `a`. -/
theorem div_minInt_counterexample :
    host64.inRange (-9223372036854775808) ∧ host64.inRange (-1) ∧
    evalTokens host64 opmap ["/"] ⟨[] ++ [Itoa (-9223372036854775808), Itoa (-1)]⟩ =
      (⟨[] ++ [Itoa (-9223372036854775808)]⟩, none) ∧
    Itoa (-9223372036854775808) ≠ Itoa (Int.tdiv (-9223372036854775808) (-1)) ∧
    (-9223372036854775808 : Int) * (-1) + Int.tmod (-9223372036854775808) (-1) ≠
      -9223372036854775808 := by
  refine ⟨by decide, by decide, by decide, by decide, by decide⟩

/-- C6 (amended): for `int` values `a` and `b` with `b ≠ 0` and every stack `s`,
on `s ++ [dec a, dec b]` the operator `%` leaves `s ++ [dec r]` and, unless `a`
is the smallest `int` and `b = -1`, the operator `/` leaves `s ++ [dec q]`,
where `q` is the quotient truncated toward zero and `r` the remainder:
`q*b + r = a`, `|r| < |b|`, `r` is zero or has the sign of `a`, and
`|q| = ⌊|a| / |b|⌋`. -/
theorem div_mod_ops (h : Host) (s : List String) (a b : Int)
    (ha : h.inRange a) (hb : h.inRange b) (hb0 : b ≠ 0) :
    (¬ (a = h.minInt ∧ b = -1) →
      evalTokens h opmap ["/"] ⟨s ++ [Itoa a, Itoa b]⟩ =
        (⟨s ++ [Itoa (Int.tdiv a b)]⟩, none)) ∧
    evalTokens h opmap ["%"] ⟨s ++ [Itoa a, Itoa b]⟩ = (⟨s ++ [Itoa (Int.tmod a b)]⟩, none) ∧
    Int.tdiv a b * b + Int.tmod a b = a ∧
    |Int.tmod a b| < |b| ∧
    (Int.tmod a b = 0 ∨ Int.sign (Int.tmod a b) = Int.sign a) ∧
    (Int.tdiv a b).natAbs = a.natAbs / b.natAbs := by
  refine ⟨?_, ?_, Int.tdiv_add_tmod' a b, ?_, ?_, Int.natAbs_tdiv a b⟩
  · intro hov
    rw [evalTokens_op h opmap "/" div [] _ (by decide) (by decide) rfl, div_eq,
      Atoi_Itoa h a ha, Atoi_Itoa h b hb, if_neg hb0,
      wrap_of_inRange h _ (tdiv_inRange h a b ha hov)]
    rfl
  · rw [evalTokens_op h opmap "%" mod [] _ (by decide) (by decide) rfl, mod_eq,
      Atoi_Itoa h a ha, Atoi_Itoa h b hb, if_neg hb0,
      wrap_of_inRange h _ (tmod_inRange h a b hb hb0)]
    rfl
  · have := tmod_natAbs_lt a b hb0
    rw [Int.abs_eq_natAbs, Int.abs_eq_natAbs]
    exact_mod_cast this
  · by_cases hr : Int.tmod a b = 0
    · exact Or.inl hr
    · right
      obtain ⟨hpos, hneg⟩ := tmod_sign a b
      rcases lt_trichotomy a 0 with ha0 | ha0 | ha0
      · have : Int.tmod a b < 0 := lt_of_le_of_ne (hneg ha0.le) hr
        rw [Int.sign_eq_neg_one_of_neg this, Int.sign_eq_neg_one_of_neg ha0]
      · subst ha0
        exact absurd (Int.zero_tmod b) hr
      · have : 0 < Int.tmod a b := lt_of_le_of_ne (hpos ha0.le) (Ne.symm hr)
        rw [Int.sign_eq_one_of_pos this, Int.sign_eq_one_of_pos ha0]

theorem div_mod_ops_witness :
    host32.inRange (-7) ∧ host32.inRange 2 ∧
    evalTokens host32 opmap ["/"] ⟨["k"] ++ [Itoa (-7), Itoa 2]⟩ =
      (⟨["k"] ++ [Itoa (Int.tdiv (-7) 2)]⟩, none) ∧
    evalTokens host32 opmap ["%"] ⟨["k"] ++ [Itoa (-7), Itoa 2]⟩ =
      (⟨["k"] ++ [Itoa (Int.tmod (-7) 2)]⟩, none) ∧
    Int.tdiv (-7) 2 = -3 ∧ Int.tmod (-7) 2 = -1 :=
  have w := div_mod_ops host32 ["k"] (-7) 2 (by decide) (by decide) (by decide)
  ⟨by decide, by decide, w.1 (by decide), w.2.1, by decide, by decide⟩

/-! ## Claims about division by zero and about operands that are not numbers -/

theorem Atoi_not_decimal (h : Host) (x : String) (hx : isDecimal x = false) :
    Atoi h x = (0, some .einval) := by
  unfold isDecimal at hx
  unfold Atoi
  split
  · rfl
  · rename_i c cs hcs
    rw [hcs] at hx
    simp only [Bool.and_eq_false_iff, Bool.not_eq_false'] at hx
    rw [if_pos]
    rcases hx with hx | hx
    · exact Or.inl hx
    · exact Or.inr (by simp [hx])

theorem Atoi_zero (h : Host) : Atoi h "0" = (0, none) :=
  Atoi_Itoa h 0 (zero_inRange h)

/-- C7 (as stated, refuted): `Eval` of "1 0 /" does not return an error to its
caller: the division panics with a `runtime.Error`, which `errRecover` raises
again, so the panic leaves `Eval`. The same happens for "1 x %", where the
divisor is not a number. -/
theorem Eval_div_zero_counterexample :
    Eval host64 opmap New "1 0 /" = (⟨[]⟩, .panicked divideError) ∧
    Eval host64 opmap New "1 x %" = (⟨[]⟩, .panicked divideError) ∧
    ¬ (∃ ret err, (Eval host64 opmap New "1 0 /").2 = .returned ret (some err)) := by
  refine ⟨by decide, by decide, ?_⟩
  rintro ⟨ret, err, he⟩
  have e : (Eval host64 opmap New "1 0 /").2 = .panicked divideError := by decide
  rw [e] at he
  exact absurd he (by simp)

/-- C7 (amended): when the token loop reaches `/` or `%` (bound to the built-in
operators) with at least two elements on the stack and a top element that reads
as 0 (the text of zero, or a text that is not a number), the loop stops there,
whatever tokens follow, with both operands popped, and `Eval` does not return:
the `runtime.Error` of the division is raised again by `errRecover` and leaves
`Eval` as a panic, which is not the "Empty stack" error. -/
theorem Eval_zero_divisor (h : Host) (r : Registry) (e : String) (f : forthstack)
    (pre post : List String) (tok : String) (s : List String) (y x : String)
    (hdiv : r "/" = some div) (hmod : r "%" = some mod)
    (hsplit : Split e ' ' = pre ++ tok :: post)
    (htok : tok = "/" ∨ tok = "%")
    (hpre : evalTokens h r pre f = (⟨s ++ [y, x]⟩, none))
    (hx : isDecimal x = false ∨ (Atoi h x).1 = 0) :
    evalTokens h r (pre ++ tok :: post) f = (⟨s⟩, some divideError) ∧
    Eval h r f e = (⟨s⟩, .panicked divideError) ∧
    divideError ≠ EmptyStack := by
  have hx0 : (Atoi h x).1 = 0 := by
    rcases hx with hx | hx
    · rw [Atoi_not_decimal h x hx]
    · exact hx
  have hloop : evalTokens h r (pre ++ tok :: post) f = (⟨s⟩, some divideError) := by
    rw [evalTokens_append, hpre]
    rcases htok with rfl | rfl
    · simp only
      rw [evalTokens_op h r "/" div post _ (by decide) (by decide) hdiv, div_eq, if_pos hx0]
    · simp only
      rw [evalTokens_op h r "%" mod post _ (by decide) (by decide) hmod, mod_eq, if_pos hx0]
  refine ⟨hloop, ?_, by decide⟩
  unfold Eval
  rw [hsplit, hloop]
  rfl

theorem Eval_zero_divisor_witness :
    evalTokens host64 opmap (["7", "1", "x"] ++ "%" :: ["2", "+"]) New =
      (⟨["7"]⟩, some divideError) ∧
    Eval host64 opmap New "7 1 x % 2 +" = (⟨["7"]⟩, .panicked divideError) ∧
    divideError ≠ EmptyStack :=
  Eval_zero_divisor host64 opmap "7 1 x % 2 +" New ["7", "1", "x"] ["2", "+"] "%" ["7"] "1" "x"
    rfl rfl (by decide) (by decide) (by decide) (by decide)

/-- C8: for each of `+`, `-`, `*`, `/`, `%`, `roundup` and every two operand
strings on top of the stack, an operand that is not the text of a decimal
integer is read as 0 and the failure of `Atoi` is dropped: the outcome (stack
left and panic, if any) is the one obtained with the literal "0" in its place.
For instance `Eval` of "abc 5 +" returns "5" with no error. -/
theorem not_decimal_reads_zero (h : Host) (s : List String) (y x name : String)
    (hname : name ∈ ["+", "-", "*", "/", "%", "roundup"]) :
    (isDecimal x = false →
      (Atoi h x).2 = some .einval ∧
      evalTokens h opmap [name] ⟨s ++ [y, x]⟩ = evalTokens h opmap [name] ⟨s ++ [y, "0"]⟩) ∧
    (isDecimal y = false →
      (Atoi h y).2 = some .einval ∧
      evalTokens h opmap [name] ⟨s ++ [y, x]⟩ = evalTokens h opmap [name] ⟨s ++ ["0", x]⟩) ∧
    Eval h opmap New "abc 5 +" = (⟨[]⟩, .returned "5" none) := by
  simp only [List.mem_cons, List.mem_singleton, List.not_mem_nil, or_false] at hname
  refine ⟨?_, ?_, ?_⟩
  · intro hx
    have e := Atoi_not_decimal h x hx
    refine ⟨by rw [e], ?_⟩
    rcases hname with rfl | rfl | rfl | rfl | rfl | rfl
    · rw [evalTokens_op h opmap "+" plus [] _ (by decide) (by decide) rfl,
        evalTokens_op h opmap "+" plus [] _ (by decide) (by decide) rfl,
        plus_eq, plus_eq, e, Atoi_zero]
    · rw [evalTokens_op h opmap "-" sub [] _ (by decide) (by decide) rfl,
        evalTokens_op h opmap "-" sub [] _ (by decide) (by decide) rfl,
        sub_eq, sub_eq, e, Atoi_zero]
    · rw [evalTokens_op h opmap "*" times [] _ (by decide) (by decide) rfl,
        evalTokens_op h opmap "*" times [] _ (by decide) (by decide) rfl,
        times_eq, times_eq, e, Atoi_zero]
    · rw [evalTokens_op h opmap "/" div [] _ (by decide) (by decide) rfl,
        evalTokens_op h opmap "/" div [] _ (by decide) (by decide) rfl,
        div_eq, div_eq, e, Atoi_zero]
    · rw [evalTokens_op h opmap "%" mod [] _ (by decide) (by decide) rfl,
        evalTokens_op h opmap "%" mod [] _ (by decide) (by decide) rfl,
        mod_eq, mod_eq, e, Atoi_zero]
    · rw [evalTokens_op h opmap "roundup" roundup [] _ (by decide) (by decide) rfl,
        evalTokens_op h opmap "roundup" roundup [] _ (by decide) (by decide) rfl,
        roundup_eq, roundup_eq, e, Atoi_zero]
  · intro hy
    have e := Atoi_not_decimal h y hy
    refine ⟨by rw [e], ?_⟩
    rcases hname with rfl | rfl | rfl | rfl | rfl | rfl
    · rw [evalTokens_op h opmap "+" plus [] _ (by decide) (by decide) rfl,
        evalTokens_op h opmap "+" plus [] _ (by decide) (by decide) rfl,
        plus_eq, plus_eq, e, Atoi_zero]
    · rw [evalTokens_op h opmap "-" sub [] _ (by decide) (by decide) rfl,
        evalTokens_op h opmap "-" sub [] _ (by decide) (by decide) rfl,
        sub_eq, sub_eq, e, Atoi_zero]
    · rw [evalTokens_op h opmap "*" times [] _ (by decide) (by decide) rfl,
        evalTokens_op h opmap "*" times [] _ (by decide) (by decide) rfl,
        times_eq, times_eq, e, Atoi_zero]
    · rw [evalTokens_op h opmap "/" div [] _ (by decide) (by decide) rfl,
        evalTokens_op h opmap "/" div [] _ (by decide) (by decide) rfl,
        div_eq, div_eq, e, Atoi_zero]
    · rw [evalTokens_op h opmap "%" mod [] _ (by decide) (by decide) rfl,
        evalTokens_op h opmap "%" mod [] _ (by decide) (by decide) rfl,
        mod_eq, mod_eq, e, Atoi_zero]
    · rw [evalTokens_op h opmap "roundup" roundup [] _ (by decide) (by decide) rfl,
        evalTokens_op h opmap "roundup" roundup [] _ (by decide) (by decide) rfl,
        roundup_eq, roundup_eq, e, Atoi_zero]
  · have hsp : Split "abc 5 +" ' ' = ["abc", "5", "+"] := by decide
    have h5 : Atoi h "5" = (5, none) := Atoi_Itoa h 5 (small_inRange h 5 (by norm_num) (by norm_num))
    have habc : Atoi h "abc" = (0, some .einval) := Atoi_not_decimal h "abc" (by decide)
    unfold Eval
    rw [hsp, evalTokens_literal h opmap "abc" _ _ (by decide),
      evalTokens_literal h opmap "5" _ _ (by decide),
      evalTokens_op h opmap "+" plus [] _ (by decide) (by decide) rfl]
    have e : ((New.Push "abc").Push "5") = ⟨[] ++ ["abc", "5"]⟩ := rfl
    rw [e, plus_eq, h5, habc, wrap_of_inRange h _ (small_inRange h _ (by norm_num) (by norm_num))]
    rfl

theorem not_decimal_reads_zero_witness :
    ((Atoi host32 "4x").2 = some .einval ∧
      evalTokens host32 opmap ["roundup"] ⟨["k"] ++ ["9", "4x"]⟩ =
        evalTokens host32 opmap ["roundup"] ⟨["k"] ++ ["9", "0"]⟩) ∧
    ((Atoi host32 "").2 = some .einval ∧
      evalTokens host32 opmap ["-"] ⟨["k"] ++ ["", "3"]⟩ =
        evalTokens host32 opmap ["-"] ⟨["k"] ++ ["0", "3"]⟩) :=
  ⟨(not_decimal_reads_zero host32 ["k"] "9" "4x" "roundup" (by decide)).1 (by decide),
   (not_decimal_reads_zero host32 ["k"] "" "3" "-" (by decide)).2.1 (by decide)⟩

/-! ## Claims about `roundup` and `swap` -/

theorem ceil_div_eq (v rnd : Int) (hpos : 0 < rnd) :
    ⌈(v : ℚ) / (rnd : ℚ)⌉ = (v + rnd - 1) / rnd := by
  have h1 : (v + rnd - 1) / rnd * rnd ≤ v + rnd - 1 := Int.ediv_mul_le _ (ne_of_gt hpos)
  have h2 : v + rnd - 1 < ((v + rnd - 1) / rnd + 1) * rnd :=
    Int.lt_ediv_add_one_mul_self _ hpos
  have hq : (0 : ℚ) < (rnd : ℚ) := by exact_mod_cast hpos
  rw [Int.ceil_eq_iff]
  constructor
  · rw [lt_div_iff₀ hq]
    have : ((v + rnd - 1) / rnd - 1) * rnd < v := by
      have e : ((v + rnd - 1) / rnd - 1) * rnd = (v + rnd - 1) / rnd * rnd - rnd := by ring
      omega
    exact_mod_cast this
  · rw [div_le_iff₀ hq]
    have : v ≤ (v + rnd - 1) / rnd * rnd := by
      have e : ((v + rnd - 1) / rnd + 1) * rnd = (v + rnd - 1) / rnd * rnd + rnd := by ring
      omega
    exact_mod_cast this

theorem roundup_ediv (h : Host) (s : List String) (v rnd : Int)
    (hv : h.inRange v) (hr : h.inRange rnd) (hpos : 0 < rnd)
    (hlo : 0 ≤ v + rnd - 1) (hhi : v + rnd - 1 ≤ h.maxInt) :
    evalTokens h opmap ["roundup"] ⟨s ++ [Itoa v, Itoa rnd]⟩ =
      (⟨s ++ [Itoa ((v + rnd - 1) / rnd * rnd)]⟩, none) := by
  have hmin : h.minInt ≤ 0 := (zero_inRange h).1
  have hN : h.inRange (v + rnd - 1) := ⟨le_trans hmin hlo, hhi⟩
  have h1 : (v + rnd - 1) / rnd * rnd ≤ v + rnd - 1 := Int.ediv_mul_le _ (ne_of_gt hpos)
  have hq0 : 0 ≤ (v + rnd - 1) / rnd := Int.ediv_nonneg hlo hpos.le
  have hqN : (v + rnd - 1) / rnd ≤ v + rnd - 1 := Int.ediv_le_self _ hlo
  have hQ : h.inRange ((v + rnd - 1) / rnd) := ⟨le_trans hmin hq0, le_trans hqN hhi⟩
  have hP : h.inRange ((v + rnd - 1) / rnd * rnd) :=
    ⟨le_trans hmin (Int.mul_nonneg hq0 hpos.le), le_trans h1 hhi⟩
  have hw : h.wrap (h.wrap (v + rnd) - 1) = v + rnd - 1 := by
    rw [sub_eq_add_neg, wrap_wrap_add, ← sub_eq_add_neg, wrap_of_inRange h _ hN]
  rw [evalTokens_op h opmap "roundup" roundup [] _ (by decide) (by decide) rfl, roundup_eq,
    Atoi_Itoa h v hv, Atoi_Itoa h rnd hr, if_neg (ne_of_gt hpos), hw,
    Int.tdiv_eq_ediv hlo hpos.le, wrap_of_inRange h _ hQ, wrap_of_inRange h _ hP]
  rfl

/-- C9 (as stated, refuted): on the stack `[dec (-5), dec 4]` the operator
`roundup` leaves `dec 0`, whereas `ceil(-5/4)*4 = -4`. -/
theorem roundup_negative_counterexample :
    host64.inRange (-5) ∧ host64.inRange 4 ∧ (4 : Int) ≠ 0 ∧
    evalTokens host64 opmap ["roundup"] ⟨[] ++ [Itoa (-5), Itoa 4]⟩ =
      (⟨[] ++ [Itoa 0]⟩, none) ∧
    ⌈((-5 : Int) : ℚ) / ((4 : Int) : ℚ)⌉ * 4 = -4 ∧
    Itoa 0 ≠ Itoa (⌈((-5 : Int) : ℚ) / ((4 : Int) : ℚ)⌉ * 4) := by
  have hc : ⌈((-5 : Int) : ℚ) / ((4 : Int) : ℚ)⌉ = -1 := by
    rw [Int.ceil_eq_iff]
    constructor <;> norm_num
  refine ⟨by decide, by decide, by decide, by decide, ?_, ?_⟩
  · rw [hc]; rfl
  · rw [hc]; decide

/-- C9 (amended): for `int` values `v` and `rnd` with `rnd > 0`, `v > -rnd`
(that is `v + rnd - 1 ≥ 0`) and `v + rnd - 1` not above the largest `int`, and
every stack `s`, on `s ++ [dec v, dec rnd]` the operator `roundup` leaves
`s ++ [dec (ceil(v/rnd) * rnd)]`, the ceiling being that of the exact
rational quotient. -/
theorem roundup_op (h : Host) (s : List String) (v rnd : Int)
    (hv : h.inRange v) (hr : h.inRange rnd) (hpos : 0 < rnd)
    (hlo : 0 ≤ v + rnd - 1) (hhi : v + rnd - 1 ≤ h.maxInt) :
    evalTokens h opmap ["roundup"] ⟨s ++ [Itoa v, Itoa rnd]⟩ =
      (⟨s ++ [Itoa (⌈(v : ℚ) / (rnd : ℚ)⌉ * rnd)]⟩, none) := by
  rw [ceil_div_eq v rnd hpos]
  exact roundup_ediv h s v rnd hv hr hpos hlo hhi

theorem roundup_op_witness :
    host32.inRange 4097 ∧ host32.inRange 8192 ∧
    evalTokens host32 opmap ["roundup"] ⟨["k"] ++ [Itoa 4097, Itoa 8192]⟩ =
      (⟨["k"] ++ [Itoa (⌈((4097 : Int) : ℚ) / ((8192 : Int) : ℚ)⌉ * 8192)]⟩, none) :=
  ⟨by decide, by decide,
    roundup_op host32 ["k"] 4097 8192 (by decide) (by decide) (by decide) (by decide) (by decide)⟩

/-- C10: on every stack `s ++ [a, b]` the operator `swap` leaves `s ++ [b, a]`:
the two top elements change places and `s` is untouched; two `swap`s give the
stack back; and for literal tokens `a` and `b`, `Eval` of "a b swap /" is
`Eval` of "b a /", from whatever stack. -/
theorem swap_op (h : Host) (s : List String) (a b : String) :
    evalTokens h opmap ["swap"] ⟨s ++ [a, b]⟩ = (⟨s ++ [b, a]⟩, none) ∧
    evalTokens h opmap ["swap", "swap"] ⟨s ++ [a, b]⟩ = (⟨s ++ [a, b]⟩, none) ∧
    (isLiteral opmap a → isLiteral opmap b → ∀ f : forthstack,
      Eval h opmap f (a ++ " " ++ b ++ " " ++ "swap" ++ " " ++ "/") =
        Eval h opmap f (b ++ " " ++ a ++ " " ++ "/")) := by
  have one : ∀ (rest : List String) (s : List String) (a b : String),
      evalTokens h opmap ("swap" :: rest) ⟨s ++ [a, b]⟩ =
        evalTokens h opmap rest ⟨s ++ [b, a]⟩ := by
    intro rest s a b
    rw [evalTokens_op h opmap "swap" swap rest _ (by decide) (by decide) rfl, swap_eq]
  refine ⟨?_, ?_, ?_⟩
  · rw [one]; rfl
  · rw [one, one]; rfl
  · intro ha hb f
    have hsp1 : Split (a ++ " " ++ b ++ " " ++ "swap" ++ " " ++ "/") ' ' =
        [a, b, "swap", "/"] := by
      refine Split_intercalate a [b, "swap", "/"] ?_
      intro x hx
      simp only [List.mem_cons, List.mem_singleton, List.not_mem_nil, or_false] at hx
      rcases hx with rfl | rfl | rfl | rfl
      · exact ha.2.1
      · exact hb.2.1
      · decide
      · decide
    have hsp2 : Split (b ++ " " ++ a ++ " " ++ "/") ' ' = [b, a, "/"] := by
      refine Split_intercalate b [a, "/"] ?_
      intro x hx
      simp only [List.mem_cons, List.mem_singleton, List.not_mem_nil, or_false] at hx
      rcases hx with rfl | rfl | rfl
      · exact hb.2.1
      · exact ha.2.1
      · decide
    have e1 : ((f.Push a).Push b) = ⟨f.stack ++ [a, b]⟩ := by simp [forthstack.Push]
    have e2 : ((f.Push b).Push a) = ⟨f.stack ++ [b, a]⟩ := by simp [forthstack.Push]
    unfold Eval
    rw [hsp1, hsp2, evalTokens_literal h opmap a _ _ ha, evalTokens_literal h opmap b _ _ hb,
      evalTokens_literal h opmap b _ _ hb, evalTokens_literal h opmap a _ _ ha, e1, e2, one]

theorem swap_op_witness :
    Eval host64 opmap ⟨["k"]⟩ ("2" ++ " " ++ "4" ++ " " ++ "swap" ++ " " ++ "/") =
      Eval host64 opmap ⟨["k"]⟩ ("4" ++ " " ++ "2" ++ " " ++ "/") :=
  (swap_op host64 [] "2" "4").2.2 (by decide) (by decide) ⟨["k"]⟩

/-! ## The operators `ifelse`, `strcat`, `dup`, `hostbase` on their operands -/

theorem Pop_snoc3 (s : List String) (z y x : String) :
    (forthstack.mk (s ++ [z, y, x])).Pop = (⟨s ++ [z, y]⟩, .ok x) := by
  have e : s ++ [z, y, x] = (s ++ [z, y]) ++ [x] := by simp
  rw [e, Pop_snoc]

theorem ifelse_eq (h : Host) (s : List String) (z y c : String) :
    ifelse h ⟨s ++ [z, y, c]⟩ = (⟨s ++ [if (Atoi h c).1 ≠ 0 then y else z]⟩, none) := by
  by_cases hc : (Atoi h c).1 = 0 <;>
    simp [ifelse, Pop_snoc3, Pop_snoc2, Pop_snoc, forthstack.Push, hc]

theorem strcat_eq (h : Host) (s : List String) (y x : String) :
    strcat h ⟨s ++ [y, x]⟩ = (⟨s ++ [y ++ x]⟩, none) := by
  simp [strcat, Pop_snoc2, Pop_snoc, forthstack.Push]

theorem dup_eq (h : Host) (s : List String) (x : String) :
    dup h ⟨s ++ [x]⟩ = (⟨s ++ [x, x]⟩, none) := by
  simp [dup, Pop_snoc, forthstack.Push]

theorem hostbase_eq (h : Host) (s : List String) (host : String) :
    hostbase h ⟨s ++ [host]⟩ =
      (⟨s ++ [TrimLeft host "abcdefghijklmnopqrstuvwxyz -"]⟩, none) := by
  simp [hostbase, Pop_snoc, forthstack.Push]

/-! ## Claims about `ifelse`, `strcat` and `dup` -/

/-- C11: on every stack `s ++ [z, y, c]` the operator `ifelse` pops three
elements and pushes one: it leaves `s ++ [y]` when `c` reads as a non-zero
integer and `s ++ [z]` otherwise, that is when `c` reads as 0 or is not the text
of an integer. `Eval` of "0 1 1 ifelse" returns "1" and `Eval` of
"0 1 0 ifelse" returns "0". -/
theorem ifelse_op (h : Host) (s : List String) (z y c : String) :
    ((Atoi h c).1 ≠ 0 →
      evalTokens h opmap ["ifelse"] ⟨s ++ [z, y, c]⟩ = (⟨s ++ [y]⟩, none)) ∧
    ((Atoi h c).1 = 0 ∨ isDecimal c = false →
      evalTokens h opmap ["ifelse"] ⟨s ++ [z, y, c]⟩ = (⟨s ++ [z]⟩, none)) ∧
    (evalTokens h opmap ["ifelse"] ⟨s ++ [z, y, c]⟩).1.Length + 3 =
      (forthstack.mk (s ++ [z, y, c])).Length + 1 ∧
    (∀ n : Int, h.inRange n → n ≠ 0 →
      evalTokens h opmap ["ifelse"] ⟨s ++ [z, y, Itoa n]⟩ = (⟨s ++ [y]⟩, none)) ∧
    Eval h opmap New "0 1 1 ifelse" = (⟨[]⟩, .returned "1" none) ∧
    Eval h opmap New "0 1 0 ifelse" = (⟨[]⟩, .returned "0" none) := by
  have step : ∀ c : String, evalTokens h opmap ["ifelse"] ⟨s ++ [z, y, c]⟩ =
      (⟨s ++ [if (Atoi h c).1 ≠ 0 then y else z]⟩, none) := by
    intro c
    rw [evalTokens_op h opmap "ifelse" ifelse [] _ (by decide) (by decide) rfl, ifelse_eq]
    rfl
  have h1 : Atoi h "1" = (1, none) :=
    Atoi_Itoa h 1 (small_inRange h 1 (by norm_num) (by norm_num))
  refine ⟨?_, ?_, ?_, ?_, ?_, ?_⟩
  · intro hc
    rw [step, if_pos hc]
  · intro hc
    have h0 : (Atoi h c).1 = 0 := by
      rcases hc with hc | hc
      · exact hc
      · rw [Atoi_not_decimal h c hc]
    rw [step, if_neg (not_not.mpr h0)]
  · rw [step]
    simp [forthstack.Length]
  · intro n hn hn0
    rw [step, Atoi_Itoa h n hn, if_pos hn0]
  · have hsp : Split "0 1 1 ifelse" ' ' = ["0", "1", "1", "ifelse"] := by decide
    unfold Eval
    rw [hsp, evalTokens_literal h opmap "0" _ _ (by decide),
      evalTokens_literal h opmap "1" _ _ (by decide),
      evalTokens_literal h opmap "1" _ _ (by decide),
      evalTokens_op h opmap "ifelse" ifelse [] _ (by decide) (by decide) rfl]
    have e : (((New.Push "0").Push "1").Push "1") = ⟨[] ++ ["0", "1", "1"]⟩ := rfl
    rw [e, ifelse_eq, h1]
    rfl
  · have hsp : Split "0 1 0 ifelse" ' ' = ["0", "1", "0", "ifelse"] := by decide
    unfold Eval
    rw [hsp, evalTokens_literal h opmap "0" _ _ (by decide),
      evalTokens_literal h opmap "1" _ _ (by decide),
      evalTokens_literal h opmap "0" _ _ (by decide),
      evalTokens_op h opmap "ifelse" ifelse [] _ (by decide) (by decide) rfl]
    have e : (((New.Push "0").Push "1").Push "0") = ⟨[] ++ ["0", "1", "0"]⟩ := rfl
    rw [e, ifelse_eq, Atoi_zero]
    rfl

theorem ifelse_op_witness :
    evalTokens host32 opmap ["ifelse"] ⟨["k"] ++ ["no", "yes", "-3"]⟩ = (⟨["k"] ++ ["yes"]⟩, none) ∧
    evalTokens host32 opmap ["ifelse"] ⟨["k"] ++ ["no", "yes", "x1"]⟩ = (⟨["k"] ++ ["no"]⟩, none) ∧
    evalTokens host32 opmap ["ifelse"] ⟨["k"] ++ ["no", "yes", "00"]⟩ = (⟨["k"] ++ ["no"]⟩, none) ∧
    evalTokens host32 opmap ["ifelse"] ⟨["k"] ++ ["no", "yes", Itoa 7]⟩ = (⟨["k"] ++ ["yes"]⟩, none) :=
  ⟨(ifelse_op host32 ["k"] "no" "yes" "-3").1 (by decide),
   (ifelse_op host32 ["k"] "no" "yes" "x1").2.1 (Or.inr (by decide)),
   (ifelse_op host32 ["k"] "no" "yes" "00").2.1 (Or.inl (by decide)),
   (ifelse_op host32 ["k"] "no" "yes" "").2.2.2.1 7 (by decide) (by decide)⟩

/-- C12: on every stack `s ++ [a, b]` the operator `strcat` leaves
`s ++ [a ++ b]`, the lower element first; so for literal tokens `a` and `b`,
`Eval` of "a b strcat" on an empty stack returns `a` followed by `b` and leaves
the stack empty. -/
theorem strcat_op (h : Host) (s : List String) (a b : String) :
    evalTokens h opmap ["strcat"] ⟨s ++ [a, b]⟩ = (⟨s ++ [a ++ b]⟩, none) ∧
    (isLiteral opmap a → isLiteral opmap b →
      Eval h opmap New (a ++ " " ++ b ++ " " ++ "strcat") =
        (⟨[]⟩, .returned (a ++ b) none)) := by
  have step : ∀ s : List String,
      evalTokens h opmap ["strcat"] ⟨s ++ [a, b]⟩ = (⟨s ++ [a ++ b]⟩, none) := by
    intro s
    rw [evalTokens_op h opmap "strcat" strcat [] _ (by decide) (by decide) rfl, strcat_eq]
    rfl
  refine ⟨step s, ?_⟩
  intro ha hb
  have hsp : Split (a ++ " " ++ b ++ " " ++ "strcat") ' ' = [a, b, "strcat"] := by
    refine Split_intercalate a [b, "strcat"] ?_
    intro x hx
    simp only [List.mem_cons, List.mem_singleton, List.not_mem_nil, or_false] at hx
    rcases hx with rfl | rfl | rfl
    · exact ha.2.1
    · exact hb.2.1
    · decide
  have e : ((New.Push a).Push b) = ⟨[] ++ [a, b]⟩ := rfl
  unfold Eval
  rw [hsp, evalTokens_literal h opmap a _ _ ha, evalTokens_literal h opmap b _ _ hb, e, step]
  simp only [List.nil_append]
  rw [show ([a ++ b] : List String) = [] ++ [a ++ b] from rfl, Pop_snoc]
  rfl

theorem strcat_op_witness :
    Eval host64 opmap New ("str" ++ " " ++ "cat" ++ " " ++ "strcat") =
      (⟨[]⟩, .returned ("str" ++ "cat") none) :=
  (strcat_op host64 [] "str" "cat").2 (by decide) (by decide)

/-- C13: on every stack `s ++ [x]` the operator `dup` leaves `s ++ [x, x]`: one
element more, the two on top equal to the former top, `s` untouched; so for
every `int` value `a` with `2a` an `int`, `Eval` of "a dup +" returns the
decimal rendering of `2a`. -/
theorem dup_op (h : Host) (s : List String) (x : String) :
    evalTokens h opmap ["dup"] ⟨s ++ [x]⟩ = (⟨s ++ [x, x]⟩, none) ∧
    (evalTokens h opmap ["dup"] ⟨s ++ [x]⟩).1.Length = (forthstack.mk (s ++ [x])).Length + 1 ∧
    (∀ a : Int, h.inRange (2 * a) →
      Eval h opmap New (Itoa a ++ " " ++ "dup" ++ " " ++ "+") =
        (⟨[]⟩, .returned (Itoa (2 * a)) none)) := by
  have step : ∀ (rest : List String) (s : List String) (x : String),
      evalTokens h opmap ("dup" :: rest) ⟨s ++ [x]⟩ = evalTokens h opmap rest ⟨s ++ [x, x]⟩ := by
    intro rest s x
    rw [evalTokens_op h opmap "dup" dup rest _ (by decide) (by decide) rfl, dup_eq]
  refine ⟨?_, ?_, ?_⟩
  · rw [step]; rfl
  · rw [step]; simp [evalTokens, forthstack.Length]
  · intro a h2a
    have ha : h.inRange a := by
      have hmin : h.minInt ≤ 0 := (zero_inRange h).1
      have hmax : 0 ≤ h.maxInt := (zero_inRange h).2
      unfold Host.inRange at h2a ⊢
      omega
    have hsp : Split (Itoa a ++ " " ++ "dup" ++ " " ++ "+") ' ' = [Itoa a, "dup", "+"] := by
      refine Split_intercalate (Itoa a) ["dup", "+"] ?_
      intro y hy
      simp only [List.mem_cons, List.mem_singleton, List.not_mem_nil, or_false] at hy
      rcases hy with rfl | rfl | rfl
      · exact (Itoa_isLiteral a).2.1
      · decide
      · decide
    have e : (New.Push (Itoa a)) = ⟨[] ++ [Itoa a]⟩ := rfl
    have e2 : a + a = 2 * a := by ring
    unfold Eval
    rw [hsp, evalTokens_literal h opmap _ _ _ (Itoa_isLiteral a), e, step,
      evalTokens_op h opmap "+" plus [] _ (by decide) (by decide) rfl, plus_eq,
      Atoi_Itoa h a ha, e2, wrap_of_inRange h _ h2a]
    simp only [evalTokens, List.nil_append]
    rw [show ([Itoa (2 * a)] : List String) = [] ++ [Itoa (2 * a)] from rfl, Pop_snoc]
    rfl

theorem dup_op_witness :
    Eval host32 opmap New (Itoa (-21) ++ " " ++ "dup" ++ " " ++ "+") =
      (⟨[]⟩, .returned (Itoa (2 * -21)) none) :=
  (dup_op host32 [] "").2.2 (-21) (by decide)

/-! ## The cutset of `hostbase` -/

theorem cutset_data :
    "abcdefghijklmnopqrstuvwxyz -".data =
      ['a', 'b', 'c', 'd', 'e', 'f', 'g', 'h', 'i', 'j', 'k', 'l', 'm', 'n', 'o', 'p', 'q',
        'r', 's', 't', 'u', 'v', 'w', 'x', 'y', 'z', ' ', '-'] := rfl

theorem mem_cutset_iff (c : Char) :
    c ∈ "abcdefghijklmnopqrstuvwxyz -".data ↔ inCutset c := by
  constructor
  · have hall : ∀ d ∈ "abcdefghijklmnopqrstuvwxyz -".data, inCutset d := by decide
    exact hall c
  · rintro (⟨h1, h2⟩ | rfl | rfl)
    · have e : Char.ofNat c.toNat = c := Char.ofNat_toNat c
      have h1' : 97 ≤ c.toNat := h1
      have h2' : c.toNat ≤ 122 := h2
      generalize c.toNat = n at e h1' h2'
      subst e
      interval_cases n <;> decide
    · decide
    · decide

theorem dropWhile_append_all {α : Type} (q : α → Bool) (p r : List α)
    (hp : ∀ c ∈ p, q c = true) : (p ++ r).dropWhile q = r.dropWhile q := by
  induction p with
  | nil => rfl
  | cons a p ih =>
    have ha : q a = true := hp a (List.mem_cons_self _ _)
    simp only [List.cons_append, List.dropWhile_cons, ha, if_true]
    exact ih (fun c hc => hp c (List.mem_cons_of_mem _ hc))

theorem dropWhile_stop {α : Type} (q : α → Bool) (r : List α)
    (hr : r = [] ∨ ∃ c cs, r = c :: cs ∧ q c = false) : r.dropWhile q = r := by
  rcases hr with rfl | ⟨c, cs, rfl, hc⟩
  · rfl
  · simp [List.dropWhile_cons, hc]

theorem dropWhile_head {α : Type} (q : α → Bool) (l : List α) :
    l.dropWhile q = [] ∨ ∃ c cs, l.dropWhile q = c :: cs ∧ q c = false := by
  induction l with
  | nil => exact Or.inl rfl
  | cons a l ih =>
    by_cases ha : q a = true
    · simpa [List.dropWhile_cons, ha] using ih
    · right
      have ha' : q a = false := by simpa using ha
      exact ⟨a, l, by simp [List.dropWhile_cons, ha'], ha'⟩

theorem takeWhile_all {α : Type} (q : α → Bool) (l : List α) :
    ∀ c ∈ l.takeWhile q, q c = true := by
  induction l with
  | nil => intro c hc; simp at hc
  | cons a l ih =>
    intro c hc
    by_cases ha : q a = true
    · simp only [List.takeWhile_cons, ha, if_true, List.mem_cons] at hc
      rcases hc with rfl | hc
      · exact ha
      · exact ih c hc
    · simp [List.takeWhile_cons, ha] at hc

/-! ## Claims about `hostbase`, `Push` and `Reset` -/

/-- C14: `hostbase` replaces the top element `host` by what is left of it once
its longest leading run of lowercase letters a-z, spaces and hyphens is
removed: `host = p ++ r` with every character of `p` in that set and `r` empty
or starting with a character outside it, and `r` is pushed, whichever such
splitting is taken; what follows the first outside character is kept as it is
(as in "sb4a-3", which gives "4a-3"); applying `hostbase` twice gives what one
application gives. -/
theorem hostbase_op (h : Host) (s : List String) (host : String) :
    evalTokens h opmap ["hostbase"] ⟨s ++ [host]⟩ =
      (⟨s ++ [TrimLeft host "abcdefghijklmnopqrstuvwxyz -"]⟩, none) ∧
    (∃ p : List Char, host.data = p ++ (TrimLeft host "abcdefghijklmnopqrstuvwxyz -").data ∧
      ∀ c ∈ p, inCutset c) ∧
    ((TrimLeft host "abcdefghijklmnopqrstuvwxyz -").data = [] ∨
      ∃ c cs, (TrimLeft host "abcdefghijklmnopqrstuvwxyz -").data = c :: cs ∧ ¬ inCutset c) ∧
    (∀ p r : List Char, host.data = p ++ r → (∀ c ∈ p, inCutset c) →
      (r = [] ∨ ∃ c cs, r = c :: cs ∧ ¬ inCutset c) →
      (TrimLeft host "abcdefghijklmnopqrstuvwxyz -").data = r) ∧
    TrimLeft "sb4a-3" "abcdefghijklmnopqrstuvwxyz -" = "4a-3" ∧
    evalTokens h opmap ["hostbase", "hostbase"] ⟨s ++ [host]⟩ =
      evalTokens h opmap ["hostbase"] ⟨s ++ [host]⟩ := by
  have step : ∀ (rest : List String) (x : String),
      evalTokens h opmap ("hostbase" :: rest) ⟨s ++ [x]⟩ =
        evalTokens h opmap rest ⟨s ++ [TrimLeft x "abcdefghijklmnopqrstuvwxyz -"]⟩ := by
    intro rest x
    rw [evalTokens_op h opmap "hostbase" hostbase rest _ (by decide) (by decide) rfl,
      hostbase_eq]
  have hq : ∀ c : Char,
      decide (c ∈ "abcdefghijklmnopqrstuvwxyz -".data) = true ↔ inCutset c := by
    intro c
    rw [decide_eq_true_iff]
    exact mem_cutset_iff c
  have hqf : ∀ c : Char,
      decide (c ∈ "abcdefghijklmnopqrstuvwxyz -".data) = false ↔ ¬ inCutset c := by
    intro c
    rw [decide_eq_false_iff_not]
    exact not_congr (mem_cutset_iff c)
  have huniq : ∀ (x : String) (p r : List Char), x.data = p ++ r → (∀ c ∈ p, inCutset c) →
      (r = [] ∨ ∃ c cs, r = c :: cs ∧ ¬ inCutset c) →
      (TrimLeft x "abcdefghijklmnopqrstuvwxyz -").data = r := by
    intro x p r hx hp hr
    show x.data.dropWhile _ = r
    rw [hx, dropWhile_append_all _ p r (fun c hc => (hq c).mpr (hp c hc))]
    apply dropWhile_stop
    rcases hr with hr | ⟨c, cs, e, hc⟩
    · exact Or.inl hr
    · exact Or.inr ⟨c, cs, e, (hqf c).mpr hc⟩
  have hstop : ∀ x : String, (TrimLeft x "abcdefghijklmnopqrstuvwxyz -").data = [] ∨
      ∃ c cs, (TrimLeft x "abcdefghijklmnopqrstuvwxyz -").data = c :: cs ∧ ¬ inCutset c := by
    intro x
    rcases dropWhile_head (fun c => decide (c ∈ "abcdefghijklmnopqrstuvwxyz -".data)) x.data
      with e | ⟨c, cs, e, hc⟩
    · exact Or.inl e
    · exact Or.inr ⟨c, cs, e, (hqf c).mp hc⟩
  refine ⟨?_, ?_, hstop host, huniq host, by decide, ?_⟩
  · rw [step]; rfl
  · refine ⟨host.data.takeWhile (fun c => decide (c ∈ "abcdefghijklmnopqrstuvwxyz -".data)),
      (List.takeWhile_append_dropWhile _ _).symm, ?_⟩
    intro c hc
    exact (hq c).mp (takeWhile_all _ _ c hc)
  · rw [step, step, step]
    have e : TrimLeft (TrimLeft host "abcdefghijklmnopqrstuvwxyz -")
        "abcdefghijklmnopqrstuvwxyz -" = TrimLeft host "abcdefghijklmnopqrstuvwxyz -" := by
      have := huniq (TrimLeft host "abcdefghijklmnopqrstuvwxyz -") []
        (TrimLeft host "abcdefghijklmnopqrstuvwxyz -").data rfl
        (fun c hc => absurd hc (List.not_mem_nil _)) (hstop host)
      exact congrArg String.mk this
    rw [e]

theorem hostbase_op_witness :
    (TrimLeft "sb43" "abcdefghijklmnopqrstuvwxyz -").data = ['4', '3'] :=
  (hostbase_op host64 [] "sb43").2.2.2.1 ['s', 'b'] ['4', '3'] rfl (by decide)
    (Or.inr ⟨'4', ['3'], rfl, by decide⟩)

/-- C17: for every stack `s` and string `v`, `Push(v)` returns (it has no way to
panic) and leaves `s ++ [v]`: `Length` is one more and `Empty` is false; a `Pop`
right after it returns `v` and leaves exactly `s`. -/
theorem Push_contract (s : List String) (v : String) :
    (forthstack.mk s).Push v = ⟨s ++ [v]⟩ ∧
    ((forthstack.mk s).Push v).Length = (forthstack.mk s).Length + 1 ∧
    ((forthstack.mk s).Push v).Empty = false ∧
    ((forthstack.mk s).Push v).Pop = (⟨s⟩, .ok v) := by
  refine ⟨rfl, ?_, ?_, ?_⟩
  · simp [forthstack.Push, forthstack.Length]
  · simp [forthstack.Push, forthstack.Empty]
  · exact Pop_snoc s v

/-- C18: after `Reset` the stack has `Length() = 0` and `Empty() = true`;
`Empty()` is always `Length() == 0`; `Reset` of an empty stack changes nothing,
so that `Reset` twice is `Reset` once; and `Reset` leaves the operator table
as it is. -/
theorem Reset_contract (f : forthstack) (r : Registry) :
    f.Reset.Length = 0 ∧ f.Reset.Empty = true ∧
    f.Empty = (f.Length == 0) ∧
    (f.Length = 0 → f.Reset = f) ∧
    f.Reset.Reset = f.Reset ∧
    (State.Reset ⟨r, f⟩).f = f.Reset ∧
    (State.Reset ⟨r, f⟩).opmap = r := by
  refine ⟨rfl, rfl, rfl, ?_, rfl, rfl, rfl⟩
  intro h0
  obtain ⟨l⟩ := f
  have : l = [] := List.eq_nil_of_length_eq_zero h0
  subst this
  rfl

theorem Reset_contract_witness :
    (forthstack.mk []).Reset = ⟨[]⟩ ∧ (forthstack.mk ["test"]).Reset.Length = 0 :=
  ⟨(Reset_contract ⟨[]⟩ opmap).2.2.2.1 rfl, (Reset_contract ⟨["test"]⟩ opmap).1⟩

/-! ## Pieces of a split expression -/

theorem splitChars_piece_no_sep (sep : Char) (l : List Char) :
    ∀ w ∈ splitChars sep l, sep ∉ w := by
  induction l with
  | nil => intro w hw; simp [splitChars] at hw; subst hw; simp
  | cons c cs ih =>
    intro w hw
    unfold splitChars at hw
    by_cases hc : c = sep
    · rw [if_pos hc] at hw
      rcases List.mem_cons.mp hw with rfl | hw
      · simp
      · exact ih w hw
    · rw [if_neg hc] at hw
      rcases hsp : splitChars sep cs with _ | ⟨w0, ws⟩
      · rw [hsp] at hw
        simp only [List.mem_singleton] at hw
        subst hw
        simpa using fun e => hc e.symm
      · rw [hsp] at hw ih
        rcases List.mem_cons.mp hw with rfl | hw
        · intro hmem
          rcases List.mem_cons.mp hmem with e | hmem
          · exact hc e.symm
          · exact ih w0 (List.mem_cons_self _ _) hmem
        · exact ih w (List.mem_cons_of_mem _ hw)

theorem Split_piece_no_space (e v : String) (hv : v ∈ Split e ' ') : ' ' ∉ v.data := by
  unfold Split at hv
  obtain ⟨w, hw, rfl⟩ := List.mem_map.mp hv
  exact splitChars_piece_no_sep ' ' e.data w hw

theorem Split_piece_ne_space (e v : String) (hv : v ∈ Split e ' ') : v ≠ " " := by
  rintro rfl
  exact Split_piece_no_space e " " hv (by decide)

/-! ## Claim about `Newop` -/

/-- C15 (as stated, refuted): after `Newop("", dup)` the evaluation of the empty
expression from the stack `["k"]` meets the empty token and skips it: `dup` is
not invoked (it would leave `["k", "k"]` for the final `Pop`), and `Eval`
returns "k" with nothing left on the stack. -/
theorem Newop_empty_name_counterexample :
    Split "" ' ' = [""] ∧
    (Newop opmap "" (some dup) "").isSome = true ∧
    evalTokens host64 (Newop opmap "" (some dup)) [""] ⟨["k"]⟩ = (⟨["k"]⟩, none) ∧
    dup host64 ⟨["k"]⟩ = (⟨["k", "k"]⟩, none) ∧
    Eval host64 (Newop opmap "" (some dup)) ⟨["k"]⟩ "" = (⟨[]⟩, .returned "k" none) := by
  refine ⟨by decide, by decide, by decide, by decide, by decide⟩

/-- C15 (amended): after `Newop(n, op)` with a non-empty name `n` and a non-nil
operator `op`, an `Eval` whose token loop reaches the token `n` invokes `op` on
the stack it has then (and goes on with the following tokens when `op`
returns, stops when it panics), whatever was bound to `n` before; the last of
two registrations under `n` wins, every other name keeps its binding, and
`Newop` leaves the stack as it is. -/
theorem Newop_dispatch (h : Host) (r : Registry) (n : String) (op : forthop)
    (e : String) (f f1 : forthstack) (pre post : List String)
    (hn : n.length ≠ 0)
    (hsplit : Split e ' ' = pre ++ n :: post)
    (hpre : evalTokens h (Newop r n (some op)) pre f = (f1, none)) :
    evalTokens h (Newop r n (some op)) (Split e ' ') f =
      (match op h f1 with
       | (f2, some p) => (f2, some p)
       | (f2, none) => evalTokens h (Newop r n (some op)) post f2) ∧
    (∀ op0 : Option forthop, Newop (Newop r n op0) n (some op) = Newop r n (some op)) ∧
    (∀ k : String, k ≠ n → Newop r n (some op) k = r k) ∧
    (State.Newop ⟨r, f⟩ n (some op)).f = f ∧
    (State.Newop ⟨r, f⟩ n (some op)).opmap = Newop r n (some op) := by
  have hmem : n ∈ Split e ' ' := by rw [hsplit]; simp
  have hsp : n ≠ " " := Split_piece_ne_space e n hmem
  have hlook : Newop r n (some op) n = some op := by simp [Newop]
  refine ⟨?_, ?_, ?_, rfl, rfl⟩
  · rw [hsplit, evalTokens_append, hpre]
    simp only
    rw [evalTokens_op h _ n op post f1 hn hsp hlook]
  · intro op0
    funext k
    by_cases hk : k = n <;> simp [Newop, hk]
  · intro k hk
    simp [Newop, hk]

theorem Newop_dispatch_witness :
    evalTokens host64 (Newop opmap "+" (some strcat)) (Split "a b + c" ' ') New =
      (match strcat host64 ⟨["a", "b"]⟩ with
       | (f2, some p) => (f2, some p)
       | (f2, none) => evalTokens host64 (Newop opmap "+" (some strcat)) ["c"] f2) ∧
    Eval host64 (Newop opmap "+" (some strcat)) New "a b + c" = (⟨["ab"]⟩, .returned "c" none) :=
  ⟨(Newop_dispatch host64 opmap "+" strcat "a b + c" New ⟨["a", "b"]⟩ ["a", "b"] ["c"]
      (by decide) (by decide) (by decide)).1, by decide⟩

/-! ## Free spacing -/

/-- The loop skips the empty pieces: it runs on the non-empty ones alone. -/
theorem evalTokens_drop_empty (h : Host) (r : Registry) (ts : List String)
    (hts : ∀ v ∈ ts, v ≠ " ") :
    ∀ f : forthstack, evalTokens h r ts f =
      evalTokens h r (ts.filter (fun v => decide (v.length ≠ 0))) f := by
  induction ts with
  | nil => intro f; rfl
  | cons t ts ih =>
    intro f
    have ht : t ≠ " " := hts t (List.mem_cons_self _ _)
    have ih' := ih (fun v hv => hts v (List.mem_cons_of_mem _ hv))
    by_cases h0 : t.length = 0
    · have e : (t :: ts).filter (fun v => decide (v.length ≠ 0)) =
          ts.filter (fun v => decide (v.length ≠ 0)) := by
        simp [List.filter_cons, h0]
      rw [e, ← ih' f]
      simp [evalTokens, h0]
    · have e : (t :: ts).filter (fun v => decide (v.length ≠ 0)) =
          t :: ts.filter (fun v => decide (v.length ≠ 0)) := by
        simp [List.filter_cons, h0]
      rw [e]
      unfold evalTokens
      rw [if_neg (by simp [h0, ht]), if_neg (by simp [h0, ht])]
      cases hr : r t with
      | none => simp only; exact ih' _
      | some fn =>
        simp only
        rcases hfn : fn h f with ⟨f1, _ | p⟩
        · simp only; exact ih' _
        · rfl

theorem Eval_tokensOf (h : Host) (r : Registry) (f : forthstack) (e : String) :
    Eval h r f e =
      match evalTokens h r (tokensOf e) f with
      | (f1, some p) => (f1, errRecover (some p) "" none)
      | (f1, none) =>
        match f1.Pop with
        | (f2, .panic p) => (f2, errRecover (some p) "" none)
        | (f2, .ok ret) => (f2, errRecover none ret none) := by
  unfold Eval tokensOf
  rw [← evalTokens_drop_empty h r (Split e ' ') (fun v hv => Split_piece_ne_space e v hv) f]

theorem pieces_replicate (k : Nat) (l : List Char) :
    (splitChars ' ' (List.replicate k ' ' ++ l)).filter (fun w => decide (w.length ≠ 0)) =
      (splitChars ' ' l).filter (fun w => decide (w.length ≠ 0)) := by
  induction k with
  | zero => simp
  | succ k ih =>
    rw [List.replicate_succ, List.cons_append]
    simp only [splitChars, if_true]
    rw [List.filter_cons]
    simpa using ih

theorem pieces_nil :
    (splitChars ' ' []).filter (fun w => decide (w.length ≠ 0)) = [] := by
  simp [splitChars]

theorem pieces_token (t l : List Char) (h0 : t.length ≠ 0) (hsp : ' ' ∉ t) :
    (splitChars ' ' (t ++ ' ' :: l)).filter (fun w => decide (w.length ≠ 0)) =
      t :: (splitChars ' ' l).filter (fun w => decide (w.length ≠ 0)) := by
  rw [splitChars_append ' ' t l hsp, List.filter_cons]
  simp [h0]

theorem pieces_last (t : List Char) (h0 : t.length ≠ 0) (hsp : ' ' ∉ t) (k : Nat) :
    (splitChars ' ' (t ++ List.replicate k ' ')).filter (fun w => decide (w.length ≠ 0)) =
      [t] := by
  cases k with
  | zero =>
    rw [List.replicate_zero, List.append_nil, splitChars_no_sep ' ' t hsp]
    have : t ≠ [] := fun e => h0 (by rw [e]; rfl)
    simp [this]
  | succ k =>
    rw [List.replicate_succ, pieces_token t _ h0 hsp]
    have := pieces_replicate k []
    rw [List.append_nil] at this
    rw [this, pieces_nil]

theorem pieces_body (trail : Nat) (rest : List (Nat × String))
    (hrest : ∀ p ∈ rest, p.2.length ≠ 0 ∧ ' ' ∉ p.2.data) :
    ∀ t : List Char, t.length ≠ 0 → ' ' ∉ t →
      (splitChars ' ' (t ++ ((rest.map (fun p => List.replicate (p.1 + 1) ' ' ++ p.2.data)).flatten
        ++ List.replicate trail ' '))).filter (fun w => decide (w.length ≠ 0)) =
      t :: rest.map (fun p => p.2.data) := by
  induction rest with
  | nil =>
    intro t h0 hsp
    simpa using pieces_last t h0 hsp trail
  | cons p rest ih =>
    intro t h0 hsp
    obtain ⟨hp0, hpsp⟩ := hrest p (List.mem_cons_self _ _)
    have e : t ++ (((p :: rest).map (fun p => List.replicate (p.1 + 1) ' ' ++ p.2.data)).flatten
        ++ List.replicate trail ' ') =
        t ++ ' ' :: (List.replicate p.1 ' ' ++ (p.2.data ++
          ((rest.map (fun p => List.replicate (p.1 + 1) ' ' ++ p.2.data)).flatten
            ++ List.replicate trail ' '))) := by
      simp [List.replicate_succ, List.append_assoc]
    rw [e, pieces_token t _ h0 hsp, pieces_replicate,
      ih (fun q hq => hrest q (List.mem_cons_of_mem _ hq)) p.2.data hp0 hpsp]
    simp

theorem tokensOf_spaced (lead trail : Nat) (t : String) (rest : List (Nat × String))
    (hall : ∀ x ∈ t :: rest.map Prod.snd, x.length ≠ 0 ∧ ' ' ∉ x.data) :
    tokensOf (spaced lead t rest trail) = t :: rest.map Prod.snd := by
  have ht := hall t (List.mem_cons_self _ _)
  have hrest : ∀ p ∈ rest, p.2.length ≠ 0 ∧ ' ' ∉ p.2.data := by
    intro p hp
    exact hall p.2 (List.mem_cons_of_mem _ (List.mem_map.mpr ⟨p, hp, rfl⟩))
  have key := pieces_body trail rest hrest t.data ht.1 ht.2
  unfold tokensOf Split spaced
  rw [List.filter_map]
  have e : (List.replicate lead ' ' ++ t.data ++
      (rest.map (fun p => List.replicate (p.1 + 1) ' ' ++ p.2.data)).flatten ++
      List.replicate trail ' ') =
      List.replicate lead ' ' ++ (t.data ++
        ((rest.map (fun p => List.replicate (p.1 + 1) ' ' ++ p.2.data)).flatten ++
          List.replicate trail ' ')) := by
    simp [List.append_assoc]
  have hf : ((fun v : String => decide (v.length ≠ 0)) ∘ String.mk) =
      (fun w : List Char => decide (w.length ≠ 0)) := by
    funext w; rfl
  simp only [e, hf]
  rw [pieces_replicate, key]
  simp [List.map_map, Function.comp_def]

theorem tokensOf_blank (n : Nat) : tokensOf (String.mk (List.replicate n ' ')) = [] := by
  unfold tokensOf Split
  rw [List.filter_map]
  have := pieces_replicate n []
  rw [List.append_nil, pieces_nil] at this
  have hf : ((fun v : String => decide (v.length ≠ 0)) ∘ String.mk) =
      (fun w : List Char => decide (w.length ≠ 0)) := by
    funext w; rfl
  simp only [hf]
  rw [this]
  rfl

/-! ## Claim about spacing -/

/-- C16: `Eval` depends on the expression only through the sequence of its
non-empty pieces between spaces: two expressions with the same such sequence
give, from the same stack and operator table, the same result, error and final
stack. In particular any two spellings of the same non-empty, space-free tokens
with one or more spaces between them and any number of spaces in front and at
the end have these tokens as their sequence and are evaluated alike, and so are
any two expressions made of spaces only. -/
theorem Eval_spacing (h : Host) (r : Registry) (f : forthstack) :
    (∀ e1 e2 : String, tokensOf e1 = tokensOf e2 → Eval h r f e1 = Eval h r f e2) ∧
    (∀ (t : String) (rest1 rest2 : List (Nat × String)) (lead1 trail1 lead2 trail2 : Nat),
      rest1.map Prod.snd = rest2.map Prod.snd →
      (∀ x ∈ t :: rest1.map Prod.snd, x.length ≠ 0 ∧ ' ' ∉ x.data) →
      tokensOf (spaced lead1 t rest1 trail1) = t :: rest1.map Prod.snd ∧
      Eval h r f (spaced lead1 t rest1 trail1) = Eval h r f (spaced lead2 t rest2 trail2)) ∧
    (∀ n m : Nat, Eval h r f (String.mk (List.replicate n ' ')) =
      Eval h r f (String.mk (List.replicate m ' '))) := by
  have dep : ∀ e1 e2 : String, tokensOf e1 = tokensOf e2 → Eval h r f e1 = Eval h r f e2 := by
    intro e1 e2 he
    rw [Eval_tokensOf, Eval_tokensOf, he]
  refine ⟨dep, ?_, ?_⟩
  · intro t rest1 rest2 lead1 trail1 lead2 trail2 hsame hall
    have h1 := tokensOf_spaced lead1 trail1 t rest1 hall
    have h2 := tokensOf_spaced lead2 trail2 t rest2 (hsame ▸ hall)
    exact ⟨h1, dep _ _ (by rw [h1, h2, hsame])⟩
  · intro n m
    exact dep _ _ (by rw [tokensOf_blank, tokensOf_blank])

theorem Eval_spacing_witness :
    tokensOf (spaced 2 "4" [(0, "2"), (3, "-")] 1) = "4" :: [(0, "2"), (3, "-")].map Prod.snd ∧
    Eval host64 opmap New (spaced 2 "4" [(0, "2"), (3, "-")] 1) =
      Eval host64 opmap New (spaced 0 "4" [(1, "2"), (0, "-")] 0) ∧
    spaced 2 "4" [(0, "2"), (3, "-")] 1 = "  4 2    - " ∧
    spaced 0 "4" [(1, "2"), (0, "-")] 0 = "4  2 -" :=
  have w := (Eval_spacing host64 opmap New).2.1 "4" [(0, "2"), (3, "-")] [(1, "2"), (0, "-")]
    2 1 0 0 (by decide) (by decide)
  ⟨w.1, w.2, by decide, by decide⟩

/-! ## `Atoi` on renderings outside `int` -/

theorem Atoi_Itoa_above (h : Host) (a : Int) (ha : h.maxInt < a) :
    Atoi h (Itoa a) = (h.maxInt, some .erange) := by
  obtain ⟨ds, hne, hdig, hval, hdata⟩ := Itoa_data a
  have hall : ds.all isDigit = true := by rw [List.all_eq_true]; exact hdig
  have hmin : h.minInt ≤ 0 := (zero_inRange h).1
  have hmax : 0 ≤ h.maxInt := (zero_inRange h).2
  have hz : ¬ a < 0 := by omega
  unfold Atoi
  rw [if_neg hz] at hdata
  rw [hdata]
  obtain ⟨c, cs, rfl⟩ := List.exists_cons_of_ne_nil hne
  have hc : isDigit c = true := hdig c (List.mem_cons_self _ _)
  have hp : c ≠ '+' := by rintro rfl; exact absurd hc (by decide)
  have hm : c ≠ '-' := by rintro rfl; exact absurd hc (by decide)
  have hv : (parseDigits (c :: cs) : Int) = a := by rw [hval]; omega
  simp [hp, hm, hall, hv]
  rw [if_neg (by omega), if_pos ha]

/-! ## Claims about `roundup` on non-negative values and about "Empty stack" -/

/-- C19 (as stated, refuted): on a 32-bit host, with `v = 1` and
`rnd = 1073741825` (`v + rnd - 1` is an `int`), `roundup` pushes
`dec 1073741825`; applied again with the same `rnd` it does not leave that
value: `r + rnd - 1` is above the largest `int`, the sum wraps, and
`dec (-1073741825)` is pushed. The same happens on a 64-bit host with
`rnd = 4611686018427387905`. -/
theorem roundup_again_counterexample :
    (0 : Int) ≤ 1 ∧ (0 : Int) < 1073741825 ∧ (1 : Int) + 1073741825 - 1 ≤ host32.maxInt ∧
    evalTokens host32 opmap ["roundup"] ⟨[] ++ [Itoa 1, Itoa 1073741825]⟩ =
      (⟨[] ++ [Itoa 1073741825]⟩, none) ∧
    evalTokens host32 opmap ["roundup"] ⟨[] ++ [Itoa 1073741825, Itoa 1073741825]⟩ =
      (⟨[] ++ [Itoa (-1073741825)]⟩, none) ∧
    Itoa (-1073741825) ≠ Itoa 1073741825 ∧
    (1 : Int) + 4611686018427387905 - 1 ≤ host64.maxInt ∧
    evalTokens host64 opmap ["roundup"] ⟨[] ++ [Itoa 1, Itoa 4611686018427387905]⟩ =
      (⟨[] ++ [Itoa 4611686018427387905]⟩, none) ∧
    evalTokens host64 opmap ["roundup"]
        ⟨[] ++ [Itoa 4611686018427387905, Itoa 4611686018427387905]⟩ =
      (⟨[] ++ [Itoa (-4611686018427387905)]⟩, none) := by
  refine ⟨by decide, by decide, by decide, by decide, by decide, by decide, by decide,
    by decide, by decide⟩

theorem roundup_core (h : Host) (s : List String) (v rnd : Int)
    (hv : 0 ≤ v) (hpos : 0 < rnd) (hhi : v + rnd - 1 ≤ h.maxInt) :
    evalTokens h opmap ["roundup"] ⟨s ++ [Itoa v, Itoa rnd]⟩ =
      (⟨s ++ [Itoa ((v + rnd - 1) / rnd * rnd)]⟩, none) := by
  have hmin : h.minInt ≤ 0 := (zero_inRange h).1
  have hvr : h.inRange v := ⟨le_trans hmin hv, by omega⟩
  by_cases hr : rnd ≤ h.maxInt
  · have hrr : h.inRange rnd := ⟨le_trans hmin hpos.le, hr⟩
    exact roundup_ediv h s v rnd hvr hrr hpos (by omega) hhi
  · have hv0 : v = 0 := by omega
    have hrnd : rnd = h.maxInt + 1 := by omega
    subst hv0
    have hmpos : 0 < h.maxInt := by
      have := (small_inRange h 1 (by norm_num) (by norm_num)).2
      omega
    have hA : Atoi h (Itoa rnd) = (h.maxInt, some .erange) := Atoi_Itoa_above h rnd (by omega)
    have h0 : Atoi h (Itoa 0) = (0, none) := Atoi_Itoa h 0 (zero_inRange h)
    have hM : h.inRange h.maxInt := ⟨by omega, le_refl _⟩
    have hM1 : h.inRange (h.maxInt - 1) := ⟨by omega, by omega⟩
    have hw : h.wrap (h.wrap (0 + h.maxInt) - 1) = h.maxInt - 1 := by
      rw [sub_eq_add_neg, wrap_wrap_add, zero_add, ← sub_eq_add_neg, wrap_of_inRange h _ hM1]
    have hq : Int.tdiv (h.maxInt - 1) h.maxInt = 0 :=
      Int.tdiv_eq_zero_of_lt (by omega) (by omega)
    have hr0 : (0 + rnd - 1) / rnd * rnd = 0 := by
      rw [Int.ediv_eq_zero_of_lt (by omega) (by omega), zero_mul]
    rw [evalTokens_op h opmap "roundup" roundup [] _ (by decide) (by decide) rfl, roundup_eq,
      hA, h0, if_neg (ne_of_gt hmpos), hw, hq, wrap_of_inRange h 0 (zero_inRange h), zero_mul,
      wrap_of_inRange h 0 (zero_inRange h), hr0]
    rfl

/-- C19 (amended): for all integers `v ≥ 0` and `rnd > 0` with `v + rnd - 1` not
above the largest `int`, on a stack with `dec v` below `dec rnd` the operator
`roundup` pushes `dec r`, where `r` is the least multiple of `rnd` that is
`≥ v`: `rnd` divides `r`, `v ≤ r < v + rnd`, `r = v` when `rnd` divides `v`;
and when `r + rnd - 1` is not above the largest `int` either, `roundup` applied
again with the same `rnd` leaves `r`. -/
theorem roundup_least_multiple (h : Host) (s : List String) (v rnd : Int)
    (hv : 0 ≤ v) (hpos : 0 < rnd) (hhi : v + rnd - 1 ≤ h.maxInt) :
    ∃ r : Int,
      evalTokens h opmap ["roundup"] ⟨s ++ [Itoa v, Itoa rnd]⟩ = (⟨s ++ [Itoa r]⟩, none) ∧
      rnd ∣ r ∧ v ≤ r ∧ r < v + rnd ∧
      (∀ m : Int, rnd ∣ m → v ≤ m → r ≤ m) ∧
      (rnd ∣ v → r = v) ∧
      (r + rnd - 1 ≤ h.maxInt →
        evalTokens h opmap ["roundup"] ⟨s ++ [Itoa r, Itoa rnd]⟩ = (⟨s ++ [Itoa r]⟩, none)) := by
  have h1 : (v + rnd - 1) / rnd * rnd ≤ v + rnd - 1 := Int.ediv_mul_le _ (ne_of_gt hpos)
  have h2 : v + rnd - 1 < ((v + rnd - 1) / rnd + 1) * rnd :=
    Int.lt_ediv_add_one_mul_self _ hpos
  have e2 : ((v + rnd - 1) / rnd + 1) * rnd = (v + rnd - 1) / rnd * rnd + rnd := by ring
  have hdvd : rnd ∣ (v + rnd - 1) / rnd * rnd := Dvd.intro_left _ rfl
  have hle : v ≤ (v + rnd - 1) / rnd * rnd := by omega
  have hlt : (v + rnd - 1) / rnd * rnd < v + rnd := by omega
  have hleast : ∀ m : Int, rnd ∣ m → v ≤ m → (v + rnd - 1) / rnd * rnd ≤ m := by
    rintro m ⟨k, rfl⟩ hm
    have hk : (v + rnd - 1) / rnd ≤ k := by
      by_contra hcon
      have hk1 : k + 1 ≤ (v + rnd - 1) / rnd := by omega
      have := Int.mul_le_mul_of_nonneg_right hk1 hpos.le
      have e3 : (k + 1) * rnd = rnd * k + rnd := by ring
      omega
    have := Int.mul_le_mul_of_nonneg_right hk hpos.le
    have e4 : k * rnd = rnd * k := by ring
    omega
  refine ⟨(v + rnd - 1) / rnd * rnd, roundup_core h s v rnd hv hpos hhi, hdvd, hle, hlt,
    hleast, ?_, ?_⟩
  · intro hvd
    exact le_antisymm (hleast v hvd (le_refl v)) hle
  · intro hhi2
    have hagain := roundup_core h s ((v + rnd - 1) / rnd * rnd) rnd (le_trans hv hle) hpos hhi2
    have hfix : ((v + rnd - 1) / rnd * rnd + rnd - 1) / rnd * rnd =
        (v + rnd - 1) / rnd * rnd := by
      have e5 : (v + rnd - 1) / rnd * rnd + rnd - 1 = (rnd - 1) + rnd * ((v + rnd - 1) / rnd) := by
        ring
      rw [e5, Int.add_mul_ediv_left _ _ (ne_of_gt hpos),
        Int.ediv_eq_zero_of_lt (by omega) (by omega), zero_add]
    rw [hfix] at hagain
    exact hagain

theorem roundup_least_multiple_witness :
    ∃ r : Int,
      evalTokens host32 opmap ["roundup"] ⟨["k"] ++ [Itoa 4095, Itoa 4096]⟩ =
        (⟨["k"] ++ [Itoa r]⟩, none) ∧
      (4096 : Int) ∣ r ∧ 4095 ≤ r ∧ r < 4095 + 4096 ∧
      (∀ m : Int, (4096 : Int) ∣ m → 4095 ≤ m → r ≤ m) ∧
      ((4096 : Int) ∣ 4095 → r = 4095) ∧
      (r + 4096 - 1 ≤ host32.maxInt →
        evalTokens host32 opmap ["roundup"] ⟨["k"] ++ [Itoa r, Itoa 4096]⟩ =
          (⟨["k"] ++ [Itoa r]⟩, none)) :=
  roundup_least_multiple host32 ["k"] 4095 4096 (by decide) (by decide) (by decide)

/-- C20: with the built-in operators, from every stack and for every
expression, when `Eval` returns an error, the error is "Empty stack", no result
is returned and the stack is empty on return. Indeed a built-in operator that
panics with an `os.Error` does so in a `Pop`, before any `Push`, on a stack
that is empty and stays so; and once a token has panicked the following tokens
are not processed. -/
theorem Eval_EmptyStack_leaves_empty (h : Host) (f : forthstack) (e : String) :
    (∀ (f' : forthstack) (ret m : String),
      Eval h opmap f e = (f', .returned ret (some m)) →
        m = "Empty stack" ∧ ret = "" ∧ f'.stack = [] ∧ f'.Length = 0 ∧ f'.Empty = true) ∧
    (∀ (n : String) (fn : forthop) (g g' : forthstack) (m : String),
      opmap n = some fn → fn h g = (g', some (.osError m)) →
        m = "Empty stack" ∧ g'.stack = []) ∧
    (∀ (pre post : List String) (g g' : forthstack) (p : PanicVal),
      evalTokens h opmap pre g = (g', some p) →
        evalTokens h opmap (pre ++ post) g = (g', some p)) := by
  refine ⟨?_, ?_, ?_⟩
  · intro f' ret m hev
    unfold Eval at hev
    rcases hloop : evalTokens h opmap (Split e ' ') f with ⟨f1, _ | p⟩
    · rw [hloop] at hev
      rcases Pop_cases f1 with ⟨h0, hp⟩ | ⟨l, v, hl, hp⟩
      · simp [hp, errRecover, EmptyStack] at hev
        obtain ⟨rfl, rfl, rfl⟩ := hev
        simp [forthstack.Length, forthstack.Empty, h0]
      · simp [hp, errRecover] at hev
    · rw [hloop] at hev
      cases p with
      | osError m' =>
        obtain ⟨hm, hst⟩ := evalTokens_osError h opmap opmap_PanicsEmpty _ _ _ _ hloop
        simp [errRecover] at hev
        obtain ⟨rfl, rfl, rfl⟩ := hev
        simp [forthstack.Length, forthstack.Empty, hst, hm]
      | runtimeError m' => simp [errRecover] at hev
      | other m' => simp [errRecover] at hev
  · intro n fn g g' m hn hfn
    exact opmap_PanicsEmpty n fn hn h g g' m hfn
  · intro pre post g g' p hpre
    rw [evalTokens_append, hpre]

theorem Eval_EmptyStack_leaves_empty_witness :
    ("Empty stack" = "Empty stack" ∧ "" = "" ∧ (forthstack.mk []).stack = [] ∧
      (forthstack.mk []).Length = 0 ∧ (forthstack.mk []).Empty = true) ∧
    Eval host64 opmap ⟨["7", "8"]⟩ "+ + 5" = (⟨[]⟩, .returned "" (some "Empty stack")) :=
  ⟨(Eval_EmptyStack_leaves_empty host64 ⟨["7", "8"]⟩ "+ + 5").1 ⟨[]⟩ "" "Empty stack"
    (by decide), by decide⟩

end Forth
